import Mathlib

/-!
Verification development for the rewrite/transaction engine of the `jj`
version-control CLI (the `abandon`, `describe`, `duplicate`, `revert`,
`unsign` and `bookmark set` commands and the descendant-rewrite engine
they delegate to).

The per-command control flow is translated from the Rust sources under
`cli/src/commands/`.  The engine primitives those commands call
(`transform_descendants`, `is_fast_forward`, `check_rewritable`,
`duplicate_commits`, the three-way tree merge) live in the `jj_lib`
crate, whose sources are not part of this snapshot; those definitions
are modelled from the specification (sections 4.1, 4.3, 4.5 and 7) and
are marked `Modelled from the spec:` in their doc comments.

Commit ids, tree ids and bookmark names are concrete (`Nat` / `String`),
and every definition is executable, so all statements can be evaluated
on concrete repositories.
-/

set_option linter.unusedVariables false

/-- Commit metadata (spec section 3, "Commit"): parent ids, tree id,
description, author and committer signatures, and an optional
cryptographic signature (tracked as a flag). The commit id is kept
outside this structure, as the key of the repository's commit list. -/
structure CommitData where
  parents : List Nat
  tree : Nat
  description : String
  authorName : String
  authorEmail : String
  committerName : String
  committerEmail : String
  signed : Bool
deriving Repr, DecidableEq

/-- A bookmark target (spec section 3, "View"): the list of commit ids a
local bookmark points at. `[]` is an absent target, a singleton is a
normal target, longer lists are conflicted targets. -/
abbrev RefTarget := List Nat

/-- The normal form of a ref target: `some id` exactly when the target
is a single commit id (mirrors `RefTarget::as_normal`). -/
def asNormal : RefTarget → Option Nat
  | [i] => some i
  | _ => none

/-- The repository as seen by one command invocation: the commit graph
(an association list from commit id to data, stored so that every
commit's parents occur strictly earlier in the list), the root commit
id, a counter that is above every allocated commit id, the local
bookmarks of the View, and the set of bookmark names that have a tracked
remote counterpart. -/
structure Repo where
  commits : List (Nat × CommitData)
  rootId : Nat
  nextId : Nat
  bookmarks : List (String × RefTarget)
  trackedRemotes : List String
deriving Repr, DecidableEq

/-- Errors of the command layer (spec section 7): user errors (with an
optional hint) and the immutable-commit error. -/
inductive CommandError where
  | userError (msg : String)
  | userErrorHint (msg : String) (hint : String)
  | immutableCommitError
deriving Repr, DecidableEq

/-- Modelled from the spec: the ancestor-reachability index over the
commit graph (section 4.5). Processing the topologically ordered commit
list once, each commit's ancestor set is itself plus the union of its
parents' ancestor sets. -/
def ancestorTable (commits : List (Nat × CommitData)) : List (Nat × List Nat) :=
  commits.foldl
    (fun tbl e =>
      tbl ++ [(e.1, e.1 :: (e.2.parents.foldl
        (fun acc p => acc ++ ((tbl.lookup p).getD [p])) []).dedup)])
    []

/-- The ancestor set recorded for `i` in an ancestor table (an id absent
from the table is its own only ancestor). -/
def ancestorsOf (tbl : List (Nat × List Nat)) (i : Nat) : List Nat :=
  (tbl.lookup i).getD [i]

/-- Modelled from the spec: `is_ancestor(a, b)` of the reachability
index (section 4.5). -/
def isAncestor (repo : Repo) (a b : Nat) : Bool :=
  (ancestorsOf (ancestorTable repo.commits) b).contains a

/-- Modelled from the spec: `is_fast_forward(old_target, new_target)`
(section 4.5) — true if the old target is absent, or is an ancestor of
the new target in the commit graph's reachability index (each id of a
conflicted old target must be an ancestor). -/
def is_fast_forward (repo : Repo) (oldTarget : RefTarget) (newTargetId : Nat) : Bool :=
  oldTarget.isEmpty || oldTarget.all (fun oldId => isAncestor repo oldId newTargetId)

/-- Whether the view records a tracked remote counterpart for a bookmark
name (mirrors `has_tracked_remote_bookmarks`). -/
def has_tracked_remote_bookmarks (repo : Repo) (name : String) : Bool :=
  repo.trackedRemotes.contains name

/-- The local target of a bookmark (absent when the name is unknown),
mirroring `View::get_local_bookmark`. -/
def get_local_bookmark (repo : Repo) (name : String) : RefTarget :=
  (repo.bookmarks.lookup name).getD []

/-- Setting a local bookmark target in the View (association-list
update), mirroring `MutRepo::set_local_bookmark_target`. -/
def set_local_bookmark (repo : Repo) (name : String) (t : RefTarget) : Repo :=
  { repo with bookmarks := (name, t) :: repo.bookmarks.filter (fun e => e.1 != name) }

/-- Modelled from the spec: `check_rewritable` (section 7,
ImmutableCommitError) — rewriting a protected commit (the root commit)
is refused before any write. -/
def check_rewritable (repo : Repo) (ids : List Nat) : Bool :=
  !ids.contains repo.rootId

/-- Modelled from the spec: the three-way merge of tree contents
(section 4.1): where both sides agree, or only one side differs from the
base, the result is the agreeing or changed value; where both differ and
disagree the result is an unresolved conflict value, encoded here as an
injective pairing of the three inputs. -/
def mergeTreeId (base a b : Nat) : Nat :=
  if a = b then a
  else if a = base then b
  else if b = base then a
  else Nat.pair base (Nat.pair a b)

/-- Modelled from the spec: the merge of the trees of a list of parent
commits (section 4.1 generalizes the merge to N sides; an empty parent
list yields the empty tree, id 0). -/
def mergeParentTrees (treeOf : Nat → Nat) : List Nat → Nat
  | [] => 0
  | [p] => treeOf p
  | p :: ps => mergeTreeId 0 (treeOf p) (mergeParentTrees treeOf ps)

/-- The replacement recorded for one rewritten commit in the descendant
walk's old-id mapping: either a freshly written commit, or — for an
abandoned commit — its resolved new parent id set. -/
inductive Replacement where
  | rewritten (newId : Nat)
  | abandoned (parentIds : List Nat)
deriving Repr, DecidableEq

/-- The ids a stale id resolves to under a replacement. -/
def Replacement.newIds : Replacement → List Nat
  | .rewritten n => [n]
  | .abandoned ps => ps

/-- Append the images of every element of a list under a list-valued
function (the flat map used to resolve stale parent ids). -/
def listJoinMap (f : Nat → List Nat) : List Nat → List Nat
  | [] => []
  | a :: l => f a ++ listJoinMap f l

/-- Resolution of one possibly-stale commit id through the walk's
mapping: ids without an entry map to themselves (spec section 4.3,
step 2). -/
def lookupIds (mapping : List (Nat × Replacement)) (i : Nat) : List Nat :=
  match mapping.lookup i with
  | some r => r.newIds
  | none => [i]

/-- Modelled from the spec: collapsing of a multi-parent set (section
4.3, step 3 and the tie-break policies): duplicate parents and parents
made redundant by being ancestors of other parents are removed. -/
def removeRedundant (anc : List (Nat × List Nat)) (ps : List Nat) : List Nat :=
  let ds := ps.dedup
  ds.filter (fun p => !ds.any (fun q => q != p && (ancestorsOf anc q).contains p))

/-- Per-commit action chosen by the caller's policy callback (spec
section 4.3, step 4): abandon the commit, or write a replacement commit
with the given data. -/
inductive RewriteAction where
  | abandonA
  | writeA (d : CommitData)
deriving Repr, DecidableEq

/-- Mutable state of the descendant walk: the old-id mapping, the newly
written commits, the incrementally extended ancestor index, and the
fresh-id counter. -/
structure WalkState where
  mapping : List (Nat × Replacement)
  written : List (Nat × CommitData)
  anc : List (Nat × List Nat)
  nextId : Nat
deriving Repr, DecidableEq

/-- The tree id of a commit as visible during the walk: newly written
commits first, then the original repository (0 for an unknown id). -/
def treeOfSt (repo : Repo) (st : WalkState) (i : Nat) : Nat :=
  match st.written.lookup i with
  | some d => d.tree
  | none =>
    match repo.commits.lookup i with
    | some c => c.tree
    | none => 0

/-- A per-commit policy callback: given the tree resolver, the old
commit id, its data, and its resolved new parent ids, choose the
rewrite action (spec section 4.3, step 4). -/
abbrev WalkPolicy := (Nat → Nat) → Nat → CommitData → List Nat → RewriteAction

/-- The new parent ids of a commit at one point of the walk: each
original parent resolved through the mapping, then collapsed (spec
section 4.3, step 3). -/
def resolvedParents (st : WalkState) (c : CommitData) : List Nat :=
  removeRedundant st.anc (listJoinMap (lookupIds st.mapping) c.parents)

/-- Modelled from the spec: one step of the descendant walk (section
4.3, step 3). A commit is in the affected set `D` when it is one of the
roots or one of its parents has already been remapped; its new parent
ids are resolved through the mapping and collapsed; the policy then
either abandons it (descendants adopt the parent set directly) or
writes a replacement commit under a fresh id. Commits outside `D` are
untouched. -/
def stepTD (repo : Repo) (roots : List Nat) (policy : WalkPolicy)
    (st : WalkState) (e : Nat × CommitData) : WalkState :=
  let inD := roots.contains e.1 || e.2.parents.any (fun p => (st.mapping.lookup p).isSome)
  if inD then
    let nps := resolvedParents st e.2
    match policy (treeOfSt repo st) e.1 e.2 nps with
    | .abandonA => { st with mapping := st.mapping ++ [(e.1, .abandoned nps)] }
    | .writeA d =>
      let nid := st.nextId
      { mapping := st.mapping ++ [(e.1, .rewritten nid)],
        written := st.written ++ [(nid, d)],
        anc := st.anc ++ [(nid, nid :: (listJoinMap (ancestorsOf st.anc) d.parents).dedup)],
        nextId := nid + 1 }
  else st

/-- The initial walk state: empty mapping, no writes, the repository's
ancestor index, and fresh ids starting at the repository's counter. -/
def initWalkState (repo : Repo) : WalkState :=
  { mapping := [], written := [], anc := ancestorTable repo.commits, nextId := repo.nextId }

/-- Modelled from the spec: the Descendant Rewriter's topological walk
(section 4.3). The repository's commit list is already stored in
topological order (parents before children), so a single left fold
visits every affected commit exactly once, with all of its new parents
already resolved. -/
def transform_descendants (repo : Repo) (roots : List Nat) (policy : WalkPolicy) : WalkState :=
  repo.commits.foldl (stepTD repo roots policy) (initWalkState repo)

/-- Options for reference fix-up after a rewrite, mirroring
`RewriteRefsOptions` of the engine: whether bookmarks pointing at an
abandoned commit are deleted (`true`) or moved to the abandoned commit's
parent set (`false`). -/
structure RewriteRefsOptions where
  delete_abandoned_bookmarks : Bool
deriving Repr, DecidableEq

/-- The default reference fix-up options (bookmarks of abandoned commits
are retained and moved to the parents). -/
def rewriteRefsOptionsDefault : RewriteRefsOptions :=
  { delete_abandoned_bookmarks := false }

/-- Modelled from the spec: update of one bookmark target after the walk
(section 4.3, step 5): every id with a mapping entry is replaced by its
rewritten id, or — when it was abandoned — by its (already deduplicated)
parent set, or deleted, per caller option. -/
def updateTarget (opts : RewriteRefsOptions) (mapping : List (Nat × Replacement))
    (t : RefTarget) : RefTarget :=
  listJoinMap
    (fun i =>
      match mapping.lookup i with
      | none => [i]
      | some (.rewritten n) => [n]
      | some (.abandoned ps) => if opts.delete_abandoned_bookmarks then [] else ps)
    t

/-- The repository after a finished walk: commits with a mapping entry
are gone (abandoned or superseded), the newly written commits are
appended (preserving topological order), and every bookmark target is
updated through the mapping. -/
def applyWalk (repo : Repo) (opts : RewriteRefsOptions) (st : WalkState) : Repo :=
  { commits := repo.commits.filter (fun e => (st.mapping.lookup e.1).isNone) ++ st.written,
    rootId := repo.rootId,
    nextId := st.nextId,
    bookmarks := repo.bookmarks.map (fun e => (e.1, updateTarget opts st.mapping e.2)),
    trackedRemotes := repo.trackedRemotes }

/-- Executable well-formedness check of the commit list: ids are fresh
(never repeated) and every commit's parents occur strictly earlier. -/
def topoOkAux (seen : List Nat) : List (Nat × CommitData) → Bool
  | [] => true
  | e :: rest =>
    !seen.contains e.1 && e.2.parents.all (fun p => seen.contains p) &&
      topoOkAux (seen ++ [e.1]) rest

/-- Executable well-formedness of a repository: the commit list is
topologically ordered with distinct ids, and every allocated id is below
the fresh-id counter. -/
def repoWellFormed (repo : Repo) : Bool :=
  topoOkAux [] repo.commits && repo.commits.all (fun e => e.1 < repo.nextId)

/-- A commit rebased onto new parents (mirrors `CommitRewriter::rebase`
and spec section 4.3): the parent pointers are replaced and the tree is
recomputed as the three-way merge of the old parent tree, the new parent
tree and the old tree. -/
def rebaseData (treeOf : Nat → Nat) (c : CommitData) (nps : List Nat) : CommitData :=
  { c with
      parents := nps,
      tree := mergeTreeId (mergeParentTrees treeOf c.parents)
        (mergeParentTrees treeOf nps) c.tree }

/-- Arguments of `jj abandon` (from `AbandonArgs` in `abandon.rs`), with
the revset arguments already resolved to commit ids in reverse
topological order. -/
structure AbandonArgs where
  revisions : List Nat
  retain_bookmarks : Bool
  restore_descendants : Bool
deriving Repr, DecidableEq

/-- The per-commit policy of `cmd_abandon` (from `abandon.rs`, the
closure passed to `transform_descendants_with_options`): commits of the
abandoned set are abandoned; other descendants are reparented (keeping
the old tree) when `--restore-descendants` is given, and rebased
(recomputing the tree by the three-way merge of the old parent tree, the
new parent tree and the old tree) otherwise. -/
def abandonPolicy (args : AbandonArgs) (toAbandonSet : List Nat) : WalkPolicy :=
  fun treeOf oldId c nps =>
    if toAbandonSet.contains oldId then .abandonA
    else if args.restore_descendants then .writeA { c with parents := nps }
    else .writeA (rebaseData treeOf c nps)

/-- Outcome of a successful `jj abandon`. -/
structure AbandonOutcome where
  repo : Repo
  txStarted : Bool
  deletedBookmarks : List String
  numRebased : Nat
deriving Repr, DecidableEq

/-- Translation of `cmd_abandon` (`abandon.rs`): an empty resolved
revset returns success without starting a transaction; rewritability is
checked before the transaction; then the descendant walk runs with the
abandon policy, references are fixed up per `RewriteRefsOptions` (the
bookmarks of abandoned commits are deleted exactly when
`--retain-bookmarks` is absent), and the deleted bookmarks are the
formerly present targets that became absent. -/
def abandon_body (repo : Repo) (args : AbandonArgs) : AbandonOutcome :=
  let opts : RewriteRefsOptions := { delete_abandoned_bookmarks := !args.retain_bookmarks }
  let st := transform_descendants repo args.revisions (abandonPolicy args args.revisions)
  let deleted := repo.bookmarks.filterMap (fun e =>
    let nt := updateTarget opts st.mapping e.2
    if nt ≠ e.2 ∧ nt = [] then some e.1 else none)
  { repo := applyWalk repo opts st, txStarted := true,
    deletedBookmarks := deleted, numRebased := st.written.length }

/-- Guard layer of `cmd_abandon` (`abandon.rs`): an empty resolved
revset returns success without starting a transaction, and
rewritability is checked before the transaction; otherwise the
transactional body above runs and the transaction finishes. -/
def cmd_abandon (repo : Repo) (args : AbandonArgs) : Except CommandError AbandonOutcome :=
  if args.revisions.isEmpty then
    .ok { repo := repo, txStarted := false, deletedBookmarks := [], numRebased := 0 }
  else if !check_rewritable repo args.revisions then
    .error .immutableCommitError
  else
    .ok (abandon_body repo args)

/-- Arguments of `jj bookmark set` (from `BookmarkSetArgs` in
`bookmark/set.rs`); the target revision is resolved externally to a
commit id. -/
structure BookmarkSetArgs where
  names : List String
  allow_backwards : Bool
deriving Repr, DecidableEq

/-- Outcome of a successful `jj bookmark set`. -/
structure BookmarkSetOutcome where
  repo : Repo
  txStarted : Bool
  newBookmarkCount : Nat
  movedBookmarkCount : Nat
deriving Repr, DecidableEq

/-- Translation of the pre-transaction loop of `cmd_bookmark_set`
(`bookmark/set.rs`): for each name, a bookmark whose old target is
absent with no tracked remote counterpart counts as newly created;
otherwise it counts as moved when its old target (as a normal target)
differs from the new target id; then a non-fast-forward move without
`--allow-backwards` fails with a user error. -/
def bookmark_set_loop (repo : Repo) (targetId : Nat) (allow_backwards : Bool) :
    List String → Nat → Nat → Except CommandError (Nat × Nat)
  | [], nc, mc => .ok (nc, mc)
  | name :: rest, nc, mc =>
    let old := get_local_bookmark repo name
    let isNew := old.isEmpty && !has_tracked_remote_bookmarks repo name
    let nc' := if isNew then nc + 1 else nc
    let mc' := if !isNew && (asNormal old != some targetId) then mc + 1 else mc
    if !allow_backwards && !is_fast_forward repo old targetId then
      .error (.userErrorHint ("Refusing to move bookmark backwards or sideways: " ++ name)
        "Use --allow-backwards to allow it.")
    else
      bookmark_set_loop repo targetId allow_backwards rest nc' mc'

/-- Translation of `cmd_bookmark_set` (`bookmark/set.rs`): the counting
and fast-forward checks all run before the transaction is started; only
if every name passes is the transaction opened, and every named bookmark
is set to the target commit. -/
def cmd_bookmark_set (repo : Repo) (targetId : Nat) (args : BookmarkSetArgs) :
    Except CommandError BookmarkSetOutcome :=
  match bookmark_set_loop repo targetId args.allow_backwards args.names 0 0 with
  | .error e => .error e
  | .ok (nc, mc) =>
    let repo' := args.names.foldl (fun r n => set_local_bookmark r n [targetId]) repo
    .ok { repo := repo', txStarted := true, newBookmarkCount := nc, movedBookmarkCount := mc }

/-- Arguments of `jj describe` (from `DescribeArgs` in `describe.rs`),
with the revset resolved to commit ids. The interactive editor is an
external process (out of scope); the shared description of the
`--message`/`--stdin` path is carried in `message`, and `none` leaves
each commit's description unchanged, which is the input on which the
unchanged-commit filter acts. -/
structure DescribeArgs where
  revisions : List Nat
  message : Option String
  reset_author : Bool
  author : Option (String × String)
deriving Repr, DecidableEq

/-- The new description `cmd_describe` assigns to one commit: the shared
description if one was given, otherwise the commit's current
description. -/
def describe_new_description (args : DescribeArgs) (c : CommitData) : String :=
  args.message.getD c.description

/-- Whether the `--author` argument differs from a commit's current
author (name or email), from the filter in `cmd_describe`. -/
def author_differs (args : DescribeArgs) (c : CommitData) : Bool :=
  match args.author with
  | some (n, e) => n != c.authorName || e != c.authorEmail
  | none => false

/-- Whether `cmd_describe` treats a commit as changed (the filter at the
end of `cmd_describe`): the new description differs, or `--reset-author`
was given, or a differing `--author` was given. -/
def describe_changed (args : DescribeArgs) (c : CommitData) : Bool :=
  (describe_new_description args c != c.description) || args.reset_author || author_differs args c

/-- The commits `cmd_describe` actually rewrites, paired with their new
descriptions: the resolved selection with unchanged commits filtered
out (so that no descendants are rebased on their account). -/
def describe_targets (repo : Repo) (args : DescribeArgs) : List (Nat × String) :=
  ((args.revisions.filterMap (fun i => (repo.commits.lookup i).map (fun c => (i, c)))).filter
    (fun e => describe_changed args e.2)).map
    (fun e => (e.1, describe_new_description args e.2))

/-- Application of the author arguments of `jj describe` to a commit
being rewritten (from the closure in `cmd_describe`): `--reset-author`
replaces the author with the committer; `--author` replaces the author
name and email. -/
def applyAuthorArgs (args : DescribeArgs) (c : CommitData) : CommitData :=
  let c1 := if args.reset_author
    then { c with authorName := c.committerName, authorEmail := c.committerEmail }
    else c
  match args.author with
  | some (n, e) => { c1 with authorName := n, authorEmail := e }
  | none => c1

/-- The per-commit policy of `cmd_describe` (the closure passed to
`transform_descendants` in `describe.rs`): every visited commit is
reparented (never rebased); commits of the description map additionally
receive their new description and author fields. -/
def describePolicy (args : DescribeArgs) (cds : List (Nat × String)) : WalkPolicy :=
  fun _treeOf oldId c nps =>
    match cds.lookup oldId with
    | some d => .writeA (applyAuthorArgs args { c with parents := nps, description := d })
    | none => .writeA { c with parents := nps }

/-- Outcome of a successful `jj describe`. -/
structure DescribeOutcome where
  repo : Repo
  txStarted : Bool
  numDescribed : Nat
deriving Repr, DecidableEq

/-- Translation of `cmd_describe` (`describe.rs`): an empty resolved
revset returns success without starting a transaction; rewritability of
the whole selection is checked; unchanged commits are filtered out, and
the descendant walk reparents every affected commit, applying the new
description and author fields to the described ones. -/
def cmd_describe (repo : Repo) (args : DescribeArgs) : Except CommandError DescribeOutcome :=
  if args.revisions.isEmpty then
    .ok { repo := repo, txStarted := false, numDescribed := 0 }
  else if !check_rewritable repo args.revisions then
    .error .immutableCommitError
  else
    let cds := describe_targets repo args
    let st := transform_descendants repo (cds.map Prod.fst) (describePolicy args cds)
    .ok { repo := applyWalk repo rewriteRefsOptionsDefault st, txStarted := true,
          numDescribed := cds.length }

/-- Arguments of `jj unsign` (from `UnsignArgs` in `unsign.rs`), with
the revset resolved to commit ids. -/
structure UnsignArgs where
  revisions : List Nat
deriving Repr, DecidableEq

/-- Whether a commit of the repository carries a cryptographic
signature (mirrors `Commit::is_signed`; an unknown id is unsigned). -/
def commit_signed (repo : Repo) (i : Nat) : Bool :=
  match repo.commits.lookup i with
  | some c => c.signed
  | none => false

/-- The commits `cmd_unsign` drops signatures from: the selected commits
that are actually signed (`to_unsign` in `unsign.rs`). -/
def unsign_targets (repo : Repo) (args : UnsignArgs) : List Nat :=
  args.revisions.filter (fun i => commit_signed repo i)

/-- The per-commit policy of `cmd_unsign` (the closure passed to
`transform_descendants` in `unsign.rs`): every visited commit is
reparented (never rebased); the targets additionally drop their
signature. -/
def unsignPolicy (targets : List Nat) : WalkPolicy :=
  fun _treeOf oldId c nps =>
    if targets.contains oldId then .writeA { c with parents := nps, signed := false }
    else .writeA { c with parents := nps }

/-- Outcome of a successful `jj unsign`. -/
structure UnsignOutcome where
  repo : Repo
  txStarted : Bool
  unsignedCount : Nat
  numReparented : Nat
deriving Repr, DecidableEq

/-- Translation of `cmd_unsign` (`unsign.rs`): rewritability of the
whole selection is checked, then the walk reparents the signed targets
(dropping their signatures) and their descendants. -/
def cmd_unsign (repo : Repo) (args : UnsignArgs) : Except CommandError UnsignOutcome :=
  if !check_rewritable repo args.revisions then
    .error .immutableCommitError
  else
    let targets := unsign_targets repo args
    let st := transform_descendants repo targets (unsignPolicy targets)
    .ok { repo := applyWalk repo rewriteRefsOptionsDefault st, txStarted := true,
          unsignedCount := targets.length,
          numReparented := st.written.length - targets.length }

/-- Arguments of `jj duplicate` (from `DuplicateArgs` in
`duplicate.rs`): the revset resolved to commit ids in reverse
topological order, and the optional location computed by
`compute_commit_location` from `--destination`, `--insert-after` and
`--insert-before` (resolved new parent ids and new child ids). -/
structure DuplicateArgs where
  revisions : List Nat
  location : Option (List Nat × List Nat)
deriving Repr, DecidableEq

/-- State of the duplication pass: the old-id to duplicate-id map, the
new commits, and the fresh-id counter. -/
structure DupState where
  dupMap : List (Nat × Nat)
  written : List (Nat × CommitData)
  nextId : Nat
deriving Repr, DecidableEq

/-- Modelled from the spec: one step of `duplicate_commits` (the command
doc of `duplicate.rs`): the roots of the specified set are duplicated
onto the destination parents (when a location was given), other
specified commits onto the already duplicated copies of their parents;
each duplicate is a new commit with the same content. -/
def duplicateStep (repo : Repo) (toDup : List Nat) (parentIds : List Nat) (useLocation : Bool)
    (st : DupState) (i : Nat) : DupState :=
  match repo.commits.lookup i with
  | none => st
  | some c =>
    let nps := if useLocation && !c.parents.any (fun p => toDup.contains p)
      then parentIds
      else c.parents.map (fun p => (st.dupMap.lookup p).getD p)
    let nid := st.nextId
    { dupMap := st.dupMap ++ [(i, nid)],
      written := st.written ++ [(nid, { c with parents := nps })],
      nextId := nid + 1 }

/-- Modelled from the spec: `duplicate_commits` /
`duplicate_commits_onto_parents` — the specified commits are processed
in topological order (the resolved list is reverse topological) and each
is copied onto its mapped parents. -/
def duplicate_commits (repo : Repo) (toDup : List Nat) (parentIds : List Nat)
    (useLocation : Bool) : DupState :=
  toDup.reverse.foldl (duplicateStep repo toDup parentIds useLocation)
    { dupMap := [], written := [], nextId := repo.nextId }

/-- The rebase policy for the new children of duplicated commits (the
heads of the duplicated set become additional parents of each new
child). -/
def duplicateChildPolicy (childSet : List Nat) (newHeadIds : List Nat) : WalkPolicy :=
  fun treeOf oldId c nps =>
    if childSet.contains oldId then .writeA (rebaseData treeOf c (nps ++ newHeadIds).dedup)
    else .writeA (rebaseData treeOf c nps)

/-- Outcome of a successful `jj duplicate`: the warnings are recorded as
the ids warned about (non-fatal advisories), `duplicated` maps each
original id to its duplicate. -/
structure DuplicateOutcome where
  repo : Repo
  txStarted : Bool
  warnedDescendant : List Nat
  warnedAncestor : List Nat
  duplicated : List (Nat × Nat)
  numRebased : Nat
deriving Repr, DecidableEq

/-- The transactional body of `cmd_duplicate` (`duplicate.rs`): a
warning is recorded for every commit duplicated as a descendant (or
ancestor) of itself, the duplicates are written, and the new children
are rebased onto the duplicated heads. -/
def duplicate_body (repo : Repo) (args : DuplicateArgs) : DuplicateOutcome :=
    let warnedD := match args.location with
      | some (ps, _) =>
        if ps.isEmpty then []
        else args.revisions.filter (fun c => ps.any (fun p => isAncestor repo c p))
      | none => []
    let warnedA := match args.location with
      | some (ps, cs) =>
        if ps.isEmpty then []
        else args.revisions.filter (fun c => cs.any (fun ch => isAncestor repo ch c))
      | none => []
    let parentIds := (args.location.map Prod.fst).getD []
    let childIds := (args.location.map Prod.snd).getD []
    let dst := duplicate_commits repo args.revisions parentIds args.location.isSome
    let repo1 := { repo with commits := repo.commits ++ dst.written, nextId := dst.nextId }
    let dupHeads := (args.revisions.filter (fun i =>
      !args.revisions.any (fun j =>
        match repo.commits.lookup j with
        | some cj => cj.parents.contains i
        | none => false))).map (fun i => (dst.dupMap.lookup i).getD i)
    let st := transform_descendants repo1 childIds (duplicateChildPolicy childIds dupHeads)
    { repo := applyWalk repo1 rewriteRefsOptionsDefault st, txStarted := true,
      warnedDescendant := warnedD, warnedAncestor := warnedA,
      duplicated := dst.dupMap, numRebased := st.written.length }

/-- Translation of `cmd_duplicate` (`duplicate.rs`): an empty resolved
revset returns success without starting a transaction; duplicating the
root commit (the last id of the reverse-topological list) is a user
error raised before the transaction; otherwise the transaction runs the
duplication body above and finishes. -/
def cmd_duplicate (repo : Repo) (args : DuplicateArgs) : Except CommandError DuplicateOutcome :=
  if args.revisions.isEmpty then
    .ok { repo := repo, txStarted := false, warnedDescendant := [], warnedAncestor := [],
          duplicated := [], numRebased := 0 }
  else if args.revisions.getLast? = some repo.rootId then
    .error (.userError "Cannot duplicate the root commit")
  else
    .ok (duplicate_body repo args)

/-- Arguments of `jj revert` (from `RevertArgs` in `revert.rs`): the
revset resolved to commit ids in reverse topological order, the location
computed by `compute_commit_location`, and the per-commit description
produced by the (external) `templates.revert_description` template. -/
structure RevertArgs where
  revisions : List Nat
  newParentIds : List Nat
  newChildIds : List Nat
  descriptionFor : Nat → String

/-- The tree id of a commit of the repository (0 for an unknown id). -/
def treeOfRepo (repo : Repo) (i : Nat) : Nat :=
  match repo.commits.lookup i with
  | some c => c.tree
  | none => 0

/-- State of the revert chain construction: the new commits, the parent
ids for the next reverted commit, the accumulated base tree, and the
fresh-id counter. -/
structure RevertBuildState where
  written : List (Nat × CommitData)
  parentIds : List Nat
  baseTree : Nat
  nextId : Nat
deriving Repr, DecidableEq

/-- One step of the revert chain (`cmd_revert`, the loop over
`commits_to_revert_with_new_commit_descriptions`): the reverse of the
commit's own change (its tree against its parent tree) is merged onto
the accumulated base tree, and a new commit is created on top of the
chain built so far. -/
def revertStep (repo : Repo) (descFor : Nat → String) (st : RevertBuildState) (i : Nat) :
    RevertBuildState :=
  match repo.commits.lookup i with
  | none => st
  | some c =>
    let oldBase := mergeParentTrees (treeOfRepo repo) c.parents
    let newTree := mergeTreeId c.tree st.baseTree oldBase
    let nid := st.nextId
    { written := st.written ++ [(nid,
        { parents := st.parentIds, tree := newTree, description := descFor i,
          authorName := "", authorEmail := "", committerName := "", committerEmail := "",
          signed := false })],
      parentIds := [nid], baseTree := newTree, nextId := nid + 1 }

/-- The rebase policy for the new children of the reverted chain
(`cmd_revert`, the closure passed to `transform_descendants`): for a new
child, parents that were the original location parents are replaced by
the new chain heads, the chain heads are added if missing, and the child
is rebased; other descendants are simply rebased. -/
def revertChildPolicy (originalParentIds childSet newHeadIds : List Nat) : WalkPolicy :=
  fun treeOf oldId c nps =>
    if childSet.contains oldId then
      let cnp := ((listJoinMap
        (fun op => if originalParentIds.contains op then newHeadIds else [op]) c.parents)
        ++ newHeadIds).dedup
      .writeA (rebaseData treeOf c cnp)
    else .writeA (rebaseData treeOf c nps)

/-- Outcome of a successful `jj revert`. -/
structure RevertOutcome where
  repo : Repo
  txStarted : Bool
  revertedCount : Nat
  numRebased : Nat
deriving Repr, DecidableEq

/-- Translation of `cmd_revert` (`revert.rs`): an empty resolved revset
returns success without starting a transaction (before the location is
even considered); otherwise the reverse of each selected commit is
applied sequentially on top of the location parents, and the new
children are rebased onto the resulting chain. -/
def cmd_revert (repo : Repo) (args : RevertArgs) : Except CommandError RevertOutcome :=
  if args.revisions.isEmpty then
    .ok { repo := repo, txStarted := false, revertedCount := 0, numRebased := 0 }
  else
    let st0 : RevertBuildState :=
      { written := [], parentIds := args.newParentIds,
        baseTree := mergeParentTrees (treeOfRepo repo) args.newParentIds,
        nextId := repo.nextId }
    let bst := args.revisions.foldl (revertStep repo args.descriptionFor) st0
    let repo1 := { repo with commits := repo.commits ++ bst.written, nextId := bst.nextId }
    let wst := transform_descendants repo1 args.newChildIds
      (revertChildPolicy args.newParentIds args.newChildIds bst.parentIds)
    .ok { repo := applyWalk repo1 rewriteRefsOptionsDefault wst, txStarted := true,
          revertedCount := bst.written.length, numRebased := wst.written.length }

/-- The reparented copy of commit C of `exRepo` (tree kept, parent moved
to A), used as the concrete written commit in the abandon-policy
witness. -/
def exC4 : CommitData :=
  { parents := [1], tree := 13, description := "C", authorName := "", authorEmail := "",
    committerName := "", committerEmail := "", signed := false }

/-- The abandon arguments used by the concrete abandon witnesses:
abandon commit B of `exRepo`, keeping descendant content. -/
def exArgsA : AbandonArgs :=
  { revisions := [2], retain_bookmarks := false, restore_descendants := true }

/-- A walk state reached by the descendant walk after processing some
prefix of the repository's commit list. -/
def walkReaches (repo : Repo) (roots : List Nat) (policy : WalkPolicy) (st : WalkState) : Prop :=
  ∃ pre rest, repo.commits = pre ++ rest ∧
    st = pre.foldl (stepTD repo roots policy) (initWalkState repo)

/-- Invariant of the abandon walk over a processed prefix `pre` of the
commit list: mapping keys are distinct processed ids; every processed
member of the abandoned set `S` has a mapping entry, and it is an
`abandoned` entry; no replacement id lies in `S`; fresh ids stay at or
above the repository's counter; written commits are fresh, distinct and
have no parent in `S`; a processed commit with a remapped parent is
itself remapped; and processed commits only have processed parents. -/
structure AbandonInv (repo : Repo) (S : List Nat) (pre : List (Nat × CommitData))
    (st : WalkState) : Prop where
  keys_sub : ∀ k : Nat, (st.mapping.lookup k).isSome → k ∈ pre.map Prod.fst
  keys_nodup : (st.mapping.map Prod.fst).Nodup
  s_mapped : ∀ e ∈ pre, e.1 ∈ S → (st.mapping.lookup e.1).isSome
  s_abandoned : ∀ kv ∈ st.mapping, kv.1 ∈ S → ∃ ps, kv.2 = Replacement.abandoned ps
  vals_clean : ∀ kv ∈ st.mapping, ∀ j ∈ kv.2.newIds, j ∉ S
  next_ge : repo.nextId ≤ st.nextId
  written_fresh : ∀ w ∈ st.written, repo.nextId ≤ w.1 ∧ w.1 < st.nextId
  written_nodup : (st.written.map Prod.fst).Nodup
  written_clean : ∀ w ∈ st.written, ∀ p ∈ w.2.parents, p ∉ S
  desc_closed : ∀ e ∈ pre, (∃ p ∈ e.2.parents, (st.mapping.lookup p).isSome) →
    (st.mapping.lookup e.1).isSome
  pre_parents : ∀ e ∈ pre, ∀ p ∈ e.2.parents, p ∈ pre.map Prod.fst

/-- Example repository: the linear history root → A → B → C with two
bookmarks, used to evaluate the abandon claims on concrete input. -/
def exRepo : Repo :=
  { commits :=
      [(0, { parents := [], tree := 10, description := "root", authorName := "",
             authorEmail := "", committerName := "", committerEmail := "", signed := false }),
       (1, { parents := [0], tree := 11, description := "A", authorName := "",
             authorEmail := "", committerName := "", committerEmail := "", signed := false }),
       (2, { parents := [1], tree := 12, description := "B", authorName := "",
             authorEmail := "", committerName := "", committerEmail := "", signed := false }),
       (3, { parents := [2], tree := 13, description := "C", authorName := "",
             authorEmail := "", committerName := "", committerEmail := "", signed := false })],
    rootId := 0, nextId := 4,
    bookmarks := [("main", [3]), ("feat", [2])],
    trackedRemotes := [] }

/-- Example repository for the bookmark claims: root → A → B with a
bookmark `b` on B and a tracked remote counterpart of `b`. -/
def exRepoB : Repo :=
  { commits :=
      [(0, { parents := [], tree := 10, description := "root", authorName := "",
             authorEmail := "", committerName := "", committerEmail := "", signed := false }),
       (1, { parents := [0], tree := 11, description := "A", authorName := "",
             authorEmail := "", committerName := "", committerEmail := "", signed := false }),
       (2, { parents := [1], tree := 12, description := "B", authorName := "",
             authorEmail := "", committerName := "", committerEmail := "", signed := false })],
    rootId := 0, nextId := 3,
    bookmarks := [("b", [2])],
    trackedRemotes := ["b"] }

/-- Example repository for the unsign claim: root → A → B where only A
is signed. -/
def exRepoS : Repo :=
  { commits :=
      [(0, { parents := [], tree := 10, description := "root", authorName := "",
             authorEmail := "", committerName := "", committerEmail := "", signed := false }),
       (1, { parents := [0], tree := 11, description := "A", authorName := "",
             authorEmail := "", committerName := "", committerEmail := "", signed := true }),
       (2, { parents := [1], tree := 12, description := "B", authorName := "",
             authorEmail := "", committerName := "", committerEmail := "", signed := false })],
    rootId := 0, nextId := 3,
    bookmarks := [],
    trackedRemotes := [] }

/-! Basic helper lemmas about association-list lookup and the list
combinators of the model. -/

theorem lookup_nil {β : Type} (k : Nat) : (([] : List (Nat × β)).lookup k) = none := rfl

theorem lookup_mem {β : Type} : ∀ {l : List (Nat × β)} {k : Nat} {v : β},
    l.lookup k = some v → (k, v) ∈ l := by
  intro l
  induction l with
  | nil => intro k v h; simp [List.lookup] at h
  | cons e l ih =>
    intro k v h
    obtain ⟨a, b⟩ := e
    rw [List.lookup] at h
    by_cases hak : k = a
    · subst hak
      simp at h
      subst h
      exact List.mem_cons_self _ _
    · rw [beq_false_of_ne hak] at h
      exact List.mem_cons_of_mem _ (ih h)

theorem lookup_isSome_iff {β : Type} : ∀ {l : List (Nat × β)} {k : Nat},
    (l.lookup k).isSome ↔ k ∈ l.map Prod.fst := by
  intro l
  induction l with
  | nil => intro k; simp [List.lookup]
  | cons e l ih =>
    intro k
    obtain ⟨a, b⟩ := e
    rw [List.lookup]
    by_cases hak : k = a
    · subst hak; simp
    · rw [beq_false_of_ne hak]
      simp only [List.map_cons, List.mem_cons]
      rw [ih]
      constructor
      · intro h; exact Or.inr h
      · intro h
        rcases h with h | h
        · exact absurd h hak
        · exact h

theorem lookup_append_some {β : Type} {l₁ l₂ : List (Nat × β)} {k : Nat} {v : β}
    (h : l₁.lookup k = some v) : ((l₁ ++ l₂).lookup k) = some v := by
  induction l₁ with
  | nil => simp [List.lookup] at h
  | cons e l ih =>
    obtain ⟨a, b⟩ := e
    rw [List.lookup] at h
    rw [show ((a, b) :: l ++ l₂) = ((a, b) :: (l ++ l₂)) from rfl, List.lookup]
    by_cases hak : k = a
    · rw [beq_iff_eq.mpr hak] at h ⊢; exact h
    · rw [beq_false_of_ne hak] at h ⊢
      exact ih h

theorem lookup_append_none {β : Type} {l₁ l₂ : List (Nat × β)} {k : Nat}
    (h : l₁.lookup k = none) : ((l₁ ++ l₂).lookup k) = l₂.lookup k := by
  induction l₁ with
  | nil => simp
  | cons e l ih =>
    obtain ⟨a, b⟩ := e
    rw [List.lookup] at h
    rw [List.cons_append, List.lookup]
    by_cases hak : k = a
    · rw [beq_iff_eq.mpr hak] at h; simp at h
    · rw [beq_false_of_ne hak] at h ⊢
      exact ih h

theorem lookup_singleton_self {β : Type} (k : Nat) (v : β) :
    (([(k, v)] : List (Nat × β)).lookup k) = some v := by
  simp [List.lookup]

theorem lookup_singleton_ne {β : Type} {k k' : Nat} (v : β) (h : k' ≠ k) :
    (([(k, v)] : List (Nat × β)).lookup k') = none := by
  rw [List.lookup, beq_false_of_ne h]
  rfl

theorem mem_listJoinMap {f : Nat → List Nat} : ∀ {l : List Nat} {x : Nat},
    x ∈ listJoinMap f l ↔ ∃ a ∈ l, x ∈ f a := by
  intro l
  induction l with
  | nil => intro x; simp [listJoinMap]
  | cons a l ih =>
    intro x
    simp only [listJoinMap, List.mem_append, ih, List.mem_cons]
    constructor
    · intro h
      rcases h with h | ⟨b, hb, hx⟩
      · exact ⟨a, Or.inl rfl, h⟩
      · exact ⟨b, Or.inr hb, hx⟩
    · intro ⟨b, hb, hx⟩
      rcases hb with hb | hb
      · subst hb; exact Or.inl hx
      · exact Or.inr ⟨b, hb, hx⟩

theorem listJoinMap_id : ∀ (l : List Nat), listJoinMap (fun i => [i]) l = l := by
  intro l
  induction l with
  | nil => rfl
  | cons a l ih => simp [listJoinMap, ih]

theorem mem_of_mem_removeRedundant {anc : List (Nat × List Nat)} {ps : List Nat} {x : Nat}
    (h : x ∈ removeRedundant anc ps) : x ∈ ps := by
  unfold removeRedundant at h
  exact List.mem_dedup.mp (List.mem_of_mem_filter h)

/-! Generic facts about the descendant walk. -/

theorem stepTD_no_roots (repo : Repo) (policy : WalkPolicy) (st : WalkState)
    (e : Nat × CommitData) (hm : st.mapping = []) :
    stepTD repo [] policy st e = st := by
  unfold stepTD
  have h1 : (([] : List Nat).contains e.1) = false := rfl
  have h2 : (e.2.parents.any fun p => (st.mapping.lookup p).isSome) = false := by
    rw [hm]
    induction e.2.parents with
    | nil => rfl
    | cons a l ih => simp [List.any_cons, ih, lookup_nil]
  rw [h1, h2]
  simp

theorem foldl_stepTD_no_roots (repo : Repo) (policy : WalkPolicy) :
    ∀ (l : List (Nat × CommitData)) (st : WalkState), st.mapping = [] →
      l.foldl (stepTD repo [] policy) st = st := by
  intro l
  induction l with
  | nil => intro st hm; rfl
  | cons e l ih =>
    intro st hm
    rw [List.foldl_cons, stepTD_no_roots repo policy st e hm, ih st hm]

theorem transform_descendants_no_roots (repo : Repo) (policy : WalkPolicy) :
    transform_descendants repo [] policy = initWalkState repo :=
  foldl_stepTD_no_roots repo policy repo.commits (initWalkState repo) rfl

theorem updateTarget_init (opts : RewriteRefsOptions) (t : RefTarget) :
    updateTarget opts [] t = t := by
  show listJoinMap _ t = t
  have : (fun i => match (([] : List (Nat × Replacement)).lookup i) with
      | none => [i]
      | some (.rewritten n) => [n]
      | some (.abandoned ps) => if opts.delete_abandoned_bookmarks then [] else ps) =
      (fun i => [i]) := by
    funext i
    rfl
  rw [this, listJoinMap_id]

theorem applyWalk_init (repo : Repo) (opts : RewriteRefsOptions) :
    applyWalk repo opts (initWalkState repo) = repo := by
  unfold applyWalk initWalkState
  cases repo with
  | mk cs root nid bms tr =>
    simp only [Repo.mk.injEq]
    refine ⟨?_, trivial, trivial, ?_, trivial⟩
    · rw [List.append_nil]
      apply List.filter_eq_self.mpr
      intro e he
      rfl
    · have : (fun e : String × RefTarget => (e.1, updateTarget opts [] e.2)) =
          (fun e => e) := by
        funext e
        rw [updateTarget_init]
      rw [this, List.map_id']

theorem stepTD_eq (repo : Repo) (roots : List Nat) (policy : WalkPolicy)
    (st : WalkState) (e : Nat × CommitData) :
    stepTD repo roots policy st e =
      (if roots.contains e.1 || e.2.parents.any (fun p => (st.mapping.lookup p).isSome) then
        match policy (treeOfSt repo st) e.1 e.2 (resolvedParents st e.2) with
        | .abandonA =>
          { st with mapping := st.mapping ++ [(e.1, .abandoned (resolvedParents st e.2))] }
        | .writeA d =>
          { mapping := st.mapping ++ [(e.1, .rewritten st.nextId)],
            written := st.written ++ [(st.nextId, d)],
            anc := st.anc ++
              [(st.nextId, st.nextId :: (listJoinMap (ancestorsOf st.anc) d.parents).dedup)],
            nextId := st.nextId + 1 }
      else st) := rfl

theorem written_of_foldl {repo : Repo} {roots : List Nat} {policy : WalkPolicy}
    (Q : Nat → CommitData → List Nat → CommitData → Prop)
    (hpol : ∀ tf oid c nps d, policy tf oid c nps = .writeA d → Q oid c nps d) :
    ∀ (l : List (Nat × CommitData)) (st : WalkState),
      (∀ x ∈ l, x ∈ repo.commits) →
      (∀ e ∈ st.written, ∃ oid c nps, (oid, c) ∈ repo.commits ∧ Q oid c nps e.2) →
      ∀ e ∈ (l.foldl (stepTD repo roots policy) st).written,
        ∃ oid c nps, (oid, c) ∈ repo.commits ∧ Q oid c nps e.2 := by
  intro l
  induction l with
  | nil => intro st _ hst e he; exact hst e he
  | cons hd l ih =>
    intro st hsub hst e he
    rw [List.foldl_cons] at he
    refine ih (stepTD repo roots policy st hd) (fun x hx => hsub x (List.mem_cons_of_mem _ hx))
      ?_ e he
    intro w hw
    rw [stepTD_eq] at hw
    by_cases hin : (roots.contains hd.1 || hd.2.parents.any fun p => (st.mapping.lookup p).isSome)
    · rw [if_pos hin] at hw
      cases hpa : policy (treeOfSt repo st) hd.1 hd.2 (resolvedParents st hd.2) with
      | abandonA =>
        rw [hpa] at hw
        exact hst w hw
      | writeA d =>
        rw [hpa] at hw
        simp only [List.mem_append, List.mem_singleton] at hw
        rcases hw with hw | hw
        · exact hst w hw
        · subst hw
          exact ⟨hd.1, hd.2, resolvedParents st hd.2,
            hsub hd (List.mem_cons_self _ _), hpol _ _ _ _ _ hpa⟩
    · rw [if_neg hin] at hw
      exact hst w hw

theorem written_of_transform {repo : Repo} {roots : List Nat} {policy : WalkPolicy}
    (Q : Nat → CommitData → List Nat → CommitData → Prop)
    (hpol : ∀ tf oid c nps d, policy tf oid c nps = .writeA d → Q oid c nps d) :
    ∀ e ∈ (transform_descendants repo roots policy).written,
      ∃ oid c nps, (oid, c) ∈ repo.commits ∧ Q oid c nps e.2 := by
  intro e he
  exact written_of_foldl Q hpol repo.commits (initWalkState repo)
    (fun x hx => hx) (fun w hw => absurd hw (List.not_mem_nil w)) e he

theorem written_reached_foldl {repo : Repo} {roots : List Nat} {policy : WalkPolicy} :
    ∀ (l pre : List (Nat × CommitData)) (st : WalkState),
      repo.commits = pre ++ l →
      st = pre.foldl (stepTD repo roots policy) (initWalkState repo) →
      ∀ e ∈ (l.foldl (stepTD repo roots policy) st).written,
        e ∈ st.written ∨
          ∃ st' oid c, walkReaches repo roots policy st' ∧ (oid, c) ∈ repo.commits ∧
            policy (treeOfSt repo st') oid c (resolvedParents st' c) = .writeA e.2 := by
  intro l
  induction l with
  | nil => intro pre st h1 h2 e he; exact Or.inl he
  | cons hd l ih =>
    intro pre st h1 h2 e he
    rw [List.foldl_cons] at he
    have h1' : repo.commits = (pre ++ [hd]) ++ l := by
      rw [h1, List.append_assoc, List.singleton_append]
    have h2' : stepTD repo roots policy st hd =
        (pre ++ [hd]).foldl (stepTD repo roots policy) (initWalkState repo) := by
      rw [List.foldl_append, ← h2, List.foldl_cons, List.foldl_nil]
    rcases ih (pre ++ [hd]) (stepTD repo roots policy st hd) h1' h2' e he with hmem | hex
    · rw [stepTD_eq] at hmem
      by_cases hin :
          (roots.contains hd.1 || hd.2.parents.any fun p => (st.mapping.lookup p).isSome)
      · rw [if_pos hin] at hmem
        cases hpa : policy (treeOfSt repo st) hd.1 hd.2 (resolvedParents st hd.2) with
        | abandonA => rw [hpa] at hmem; exact Or.inl hmem
        | writeA d =>
          rw [hpa] at hmem
          simp only [List.mem_append, List.mem_singleton] at hmem
          rcases hmem with hmem | hmem
          · exact Or.inl hmem
          · right
            refine ⟨st, hd.1, hd.2, ⟨pre, hd :: l, h1, h2⟩, ?_, ?_⟩
            · rw [h1]
              exact List.mem_append_right pre (List.mem_cons_self _ _)
            · rw [hmem]
              exact hpa
      · rw [if_neg hin] at hmem; exact Or.inl hmem
    · exact Or.inr hex

theorem written_reached {repo : Repo} {roots : List Nat} {policy : WalkPolicy} :
    ∀ e ∈ (transform_descendants repo roots policy).written,
      ∃ st oid c, walkReaches repo roots policy st ∧ (oid, c) ∈ repo.commits ∧
        policy (treeOfSt repo st) oid c (resolvedParents st c) = .writeA e.2 := by
  intro e he
  rcases written_reached_foldl repo.commits [] (initWalkState repo)
      (List.nil_append _).symm rfl e he with h | h
  · exact absurd h (List.not_mem_nil e)
  · exact h

theorem isSome_lookup_append_left {β : Type} {l₁ l₂ : List (Nat × β)} {k : Nat}
    (h : (l₁.lookup k).isSome) : ((l₁ ++ l₂).lookup k).isSome := by
  obtain ⟨v, hv⟩ := Option.isSome_iff_exists.mp h
  rw [lookup_append_some hv]
  rfl

theorem lookup_append_singleton_self {β : Type} {l : List (Nat × β)} {k : Nat} (v : β)
    (h : l.lookup k = none) : ((l ++ [(k, v)]).lookup k) = some v := by
  rw [lookup_append_none h, lookup_singleton_self]

theorem isSome_lookup_append_singleton_elim {β : Type} {l : List (Nat × β)} {k i : Nat}
    {v : β} (hki : k ≠ i) (h : ((l ++ [(i, v)]).lookup k).isSome) : (l.lookup k).isSome := by
  cases hl : l.lookup k with
  | some w => rfl
  | none =>
    rw [lookup_append_none hl, lookup_singleton_ne v hki] at h
    exact absurd h (by simp)

theorem mem_keys_of_lookup_isSome {β : Type} {l : List (Nat × β)} {k : Nat}
    (h : (l.lookup k).isSome) : k ∈ l.map Prod.fst :=
  lookup_isSome_iff.mp h

/-- The common mapping-extension argument of the abandon walk: appending
one entry for a fresh id `i` (with processed parents) preserves the
parts of the invariant that do not inspect the entry's replacement
value. Specialized below to the abandoned and written cases. -/
theorem abandonInv_lookup_i_none {repo : Repo} {S : List Nat}
    {pre : List (Nat × CommitData)} {st : WalkState} {i : Nat}
    (inv : AbandonInv repo S pre st) (hii : i ∉ pre.map Prod.fst) :
    st.mapping.lookup i = none := by
  cases h : st.mapping.lookup i with
  | none => rfl
  | some r =>
    exact absurd (inv.keys_sub i (by rw [h]; rfl)) hii

theorem abandonInv_extend_abandon {repo : Repo} {S : List Nat}
    {pre : List (Nat × CommitData)} {st : WalkState} {i : Nat} {c : CommitData}
    (inv : AbandonInv repo S pre st)
    (hii : i ∉ pre.map Prod.fst)
    (hpar : ∀ p ∈ c.parents, p ∈ pre.map Prod.fst)
    (hnps : ∀ j ∈ resolvedParents st c, j ∉ S) :
    AbandonInv repo S (pre ++ [(i, c)])
      { st with mapping := st.mapping ++ [(i, Replacement.abandoned (resolvedParents st c))] } := by
  have hiNone := abandonInv_lookup_i_none inv hii
  refine ⟨?_, ?_, ?_, ?_, ?_, inv.next_ge, inv.written_fresh, inv.written_nodup,
    inv.written_clean, ?_, ?_⟩
  · -- keys_sub
    intro k hk
    rw [List.map_append]
    by_cases hki : k = i
    · subst hki
      exact List.mem_append_right _ (by simp)
    · exact List.mem_append_left _
        (inv.keys_sub k (isSome_lookup_append_singleton_elim hki hk))
  · -- keys_nodup
    rw [List.map_append]
    refine List.Nodup.append inv.keys_nodup (List.nodup_singleton _) ?_
    intro x hx hx'
    simp only [List.map_cons, List.map_nil, List.mem_singleton] at hx'
    subst hx'
    exact hii (inv.keys_sub x (lookup_isSome_iff.mpr hx))
  · -- s_mapped
    intro e he heS
    rcases List.mem_append.mp he with he | he
    · exact isSome_lookup_append_left (inv.s_mapped e he heS)
    · rw [List.mem_singleton] at he
      subst he
      rw [lookup_append_singleton_self _ hiNone]
      rfl
  · -- s_abandoned
    intro kv hkv hkS
    rcases List.mem_append.mp hkv with hkv | hkv
    · exact inv.s_abandoned kv hkv hkS
    · rw [List.mem_singleton] at hkv
      subst hkv
      exact ⟨resolvedParents st c, rfl⟩
  · -- vals_clean
    intro kv hkv j hj
    rcases List.mem_append.mp hkv with hkv | hkv
    · exact inv.vals_clean kv hkv j hj
    · rw [List.mem_singleton] at hkv
      subst hkv
      exact hnps j hj
  · -- desc_closed
    intro e he hex
    rcases List.mem_append.mp he with he | he
    · obtain ⟨p, hp, hps⟩ := hex
      have hpi : p ≠ i := fun hpi => hii (hpi ▸ inv.pre_parents e he p hp)
      exact isSome_lookup_append_left
        (inv.desc_closed e he ⟨p, hp, isSome_lookup_append_singleton_elim hpi hps⟩)
    · rw [List.mem_singleton] at he
      subst he
      rw [lookup_append_singleton_self _ hiNone]
      rfl
  · -- pre_parents
    intro e he p hp
    rw [List.map_append]
    rcases List.mem_append.mp he with he | he
    · exact List.mem_append_left _ (inv.pre_parents e he p hp)
    · rw [List.mem_singleton] at he
      subst he
      exact List.mem_append_left _ (hpar p hp)

theorem abandonInv_extend_write {repo : Repo} {S : List Nat}
    {pre : List (Nat × CommitData)} {st : WalkState} {i : Nat} {c d : CommitData}
    (inv : AbandonInv repo S pre st)
    (hii : i ∉ pre.map Prod.fst)
    (hpar : ∀ p ∈ c.parents, p ∈ pre.map Prod.fst)
    (hnps : ∀ j ∈ resolvedParents st c, j ∉ S)
    (hiS : i ∉ S)
    (hdp : d.parents = resolvedParents st c)
    (hfreshS : ∀ s ∈ S, s < repo.nextId) :
    AbandonInv repo S (pre ++ [(i, c)])
      { mapping := st.mapping ++ [(i, Replacement.rewritten st.nextId)],
        written := st.written ++ [(st.nextId, d)],
        anc := st.anc ++
          [(st.nextId, st.nextId :: (listJoinMap (ancestorsOf st.anc) d.parents).dedup)],
        nextId := st.nextId + 1 } := by
  have hiNone := abandonInv_lookup_i_none inv hii
  refine ⟨?_, ?_, ?_, ?_, ?_, ?_, ?_, ?_, ?_, ?_, ?_⟩
  · -- keys_sub
    intro k hk
    rw [List.map_append]
    by_cases hki : k = i
    · subst hki
      exact List.mem_append_right _ (by simp)
    · exact List.mem_append_left _
        (inv.keys_sub k (isSome_lookup_append_singleton_elim hki hk))
  · -- keys_nodup
    rw [List.map_append]
    refine List.Nodup.append inv.keys_nodup (List.nodup_singleton _) ?_
    intro x hx hx'
    simp only [List.map_cons, List.map_nil, List.mem_singleton] at hx'
    subst hx'
    exact hii (inv.keys_sub x (lookup_isSome_iff.mpr hx))
  · -- s_mapped
    intro e he heS
    rcases List.mem_append.mp he with he | he
    · exact isSome_lookup_append_left (inv.s_mapped e he heS)
    · rw [List.mem_singleton] at he
      subst he
      rw [lookup_append_singleton_self _ hiNone]
      rfl
  · -- s_abandoned
    intro kv hkv hkS
    rcases List.mem_append.mp hkv with hkv | hkv
    · exact inv.s_abandoned kv hkv hkS
    · rw [List.mem_singleton] at hkv
      subst hkv
      exact absurd hkS hiS
  · -- vals_clean
    intro kv hkv j hj
    rcases List.mem_append.mp hkv with hkv | hkv
    · exact inv.vals_clean kv hkv j hj
    · rw [List.mem_singleton] at hkv
      subst hkv
      intro hjS
      simp only [Replacement.newIds, List.mem_singleton] at hj
      subst hj
      exact absurd (hfreshS _ hjS) (Nat.not_lt.mpr inv.next_ge)
  · -- next_ge
    exact Nat.le_trans inv.next_ge (Nat.le_succ _)
  · -- written_fresh
    intro w hw
    rcases List.mem_append.mp hw with hw | hw
    · exact ⟨(inv.written_fresh w hw).1, Nat.lt_succ_of_lt (inv.written_fresh w hw).2⟩
    · rw [List.mem_singleton] at hw
      subst hw
      exact ⟨inv.next_ge, Nat.lt_succ_self _⟩
  · -- written_nodup
    rw [List.map_append]
    refine List.Nodup.append inv.written_nodup (List.nodup_singleton _) ?_
    intro x hx hx'
    simp only [List.map_cons, List.map_nil, List.mem_singleton] at hx'
    subst hx'
    obtain ⟨w, hw, hw1⟩ := List.mem_map.mp hx
    exact absurd (hw1 ▸ (inv.written_fresh w hw).2) (Nat.lt_irrefl _)
  · -- written_clean
    intro w hw p hp
    rcases List.mem_append.mp hw with hw | hw
    · exact inv.written_clean w hw p hp
    · rw [List.mem_singleton] at hw
      subst hw
      have : p ∈ resolvedParents st c := by
        rw [← hdp]
        exact hp
      exact hnps p this
  · -- desc_closed
    intro e he hex
    rcases List.mem_append.mp he with he | he
    · obtain ⟨p, hp, hps⟩ := hex
      have hpi : p ≠ i := fun hpi => hii (hpi ▸ inv.pre_parents e he p hp)
      exact isSome_lookup_append_left
        (inv.desc_closed e he ⟨p, hp, isSome_lookup_append_singleton_elim hpi hps⟩)
    · rw [List.mem_singleton] at he
      subst he
      rw [lookup_append_singleton_self _ hiNone]
      rfl
  · -- pre_parents
    intro e he p hp
    rw [List.map_append]
    rcases List.mem_append.mp he with he | he
    · exact List.mem_append_left _ (inv.pre_parents e he p hp)
    · rw [List.mem_singleton] at he
      subst he
      exact List.mem_append_left _ (hpar p hp)

theorem resolvedParents_clean {repo : Repo} {S : List Nat}
    {pre : List (Nat × CommitData)} {st : WalkState} {c : CommitData}
    (inv : AbandonInv repo S pre st)
    (hpar : ∀ p ∈ c.parents, p ∈ pre.map Prod.fst) :
    ∀ j ∈ resolvedParents st c, j ∉ S := by
  intro j hj hjS
  unfold resolvedParents at hj
  have hj' := mem_of_mem_removeRedundant hj
  rw [mem_listJoinMap] at hj'
  obtain ⟨p, hp, hjp⟩ := hj'
  cases hlp : st.mapping.lookup p with
  | none =>
    have heq : lookupIds st.mapping p = [p] := by unfold lookupIds; rw [hlp]
    rw [heq, List.mem_singleton] at hjp
    subst hjp
    obtain ⟨ep, hep, hep1⟩ := List.mem_map.mp (hpar j hp)
    have hs := inv.s_mapped ep hep (by rw [hep1]; exact hjS)
    rw [hep1, hlp] at hs
    exact absurd hs (by simp)
  | some r =>
    have heq : lookupIds st.mapping p = r.newIds := by unfold lookupIds; rw [hlp]
    rw [heq] at hjp
    exact inv.vals_clean (p, r) (lookup_mem hlp) j hjp hjS

theorem abandon_step_inv {repo : Repo} {S : List Nat} {args : AbandonArgs}
    {pre : List (Nat × CommitData)} {st : WalkState} {e : Nat × CommitData}
    (hS : ∀ s ∈ S, (repo.commits.lookup s).isSome)
    (hlt : ∀ x ∈ repo.commits, x.1 < repo.nextId)
    (inv : AbandonInv repo S pre st)
    (hii : e.1 ∉ pre.map Prod.fst)
    (hpar : ∀ p ∈ e.2.parents, p ∈ pre.map Prod.fst) :
    AbandonInv repo S (pre ++ [e]) (stepTD repo S (abandonPolicy args S) st e) := by
  have hfreshS : ∀ s ∈ S, s < repo.nextId := by
    intro s hs
    obtain ⟨v, hv⟩ := Option.isSome_iff_exists.mp (hS s hs)
    exact hlt (s, v) (lookup_mem hv)
  have hnps := resolvedParents_clean inv hpar
  rw [stepTD_eq]
  by_cases hin : (S.contains e.1 || e.2.parents.any fun p => (st.mapping.lookup p).isSome) = true
  · rw [if_pos hin]
    by_cases hiS : e.1 ∈ S
    · have hpa : abandonPolicy args S (treeOfSt repo st) e.1 e.2 (resolvedParents st e.2) =
          .abandonA := by
        unfold abandonPolicy
        rw [if_pos (List.elem_iff.mpr hiS)]
      rw [hpa]
      exact abandonInv_extend_abandon inv hii hpar hnps
    · have hcon : ¬(S.contains e.1 = true) := fun h => hiS (List.elem_iff.mp h)
      by_cases hre : args.restore_descendants = true
      · have hpa : abandonPolicy args S (treeOfSt repo st) e.1 e.2 (resolvedParents st e.2) =
            .writeA { e.2 with parents := resolvedParents st e.2 } := by
          unfold abandonPolicy
          rw [if_neg hcon, if_pos hre]
        rw [hpa]
        exact abandonInv_extend_write inv hii hpar hnps hiS rfl hfreshS
      · have hpa : abandonPolicy args S (treeOfSt repo st) e.1 e.2 (resolvedParents st e.2) =
            .writeA (rebaseData (treeOfSt repo st) e.2 (resolvedParents st e.2)) := by
          unfold abandonPolicy
          rw [if_neg hcon, if_neg hre]
        rw [hpa]
        exact abandonInv_extend_write inv hii hpar hnps hiS rfl hfreshS
  · rw [if_neg hin]
    have hb : ¬(S.contains e.1 = true ∨
        (e.2.parents.any fun p => (st.mapping.lookup p).isSome) = true) := by
      rw [← Bool.or_eq_true]
      exact hin
    refine ⟨?_, inv.keys_nodup, ?_, inv.s_abandoned, inv.vals_clean, inv.next_ge,
      inv.written_fresh, inv.written_nodup, inv.written_clean, ?_, ?_⟩
    · intro k hk
      rw [List.map_append]
      exact List.mem_append_left _ (inv.keys_sub k hk)
    · intro x hx hxS
      rcases List.mem_append.mp hx with hx | hx
      · exact inv.s_mapped x hx hxS
      · rw [List.mem_singleton] at hx
        subst hx
        exact absurd (Or.inl (List.elem_iff.mpr hxS)) hb
    · intro x hx hex
      rcases List.mem_append.mp hx with hx | hx
      · exact inv.desc_closed x hx hex
      · rw [List.mem_singleton] at hx
        subst hx
        obtain ⟨p, hp, hps⟩ := hex
        exact absurd (Or.inr (List.any_eq_true.mpr ⟨p, hp, hps⟩)) hb
    · intro x hx p hp
      rw [List.map_append]
      rcases List.mem_append.mp hx with hx | hx
      · exact List.mem_append_left _ (inv.pre_parents x hx p hp)
      · rw [List.mem_singleton] at hx
        subst hx
        exact List.mem_append_left _ (hpar p hp)

theorem abandon_fold_inv {repo : Repo} {S : List Nat} {args : AbandonArgs}
    (hS : ∀ s ∈ S, (repo.commits.lookup s).isSome)
    (hlt : ∀ x ∈ repo.commits, x.1 < repo.nextId) :
    ∀ (l pre : List (Nat × CommitData)) (st : WalkState),
      topoOkAux (pre.map Prod.fst) l = true →
      AbandonInv repo S pre st →
      AbandonInv repo S (pre ++ l) (l.foldl (stepTD repo S (abandonPolicy args S)) st) := by
  intro l
  induction l with
  | nil =>
    intro pre st _ inv
    rw [List.append_nil]
    exact inv
  | cons e l ih =>
    intro pre st htopo inv
    simp only [topoOkAux, Bool.and_eq_true] at htopo
    obtain ⟨⟨hn, hall⟩, hrest⟩ := htopo
    have hii : e.1 ∉ pre.map Prod.fst := by
      intro hmem
      have hc : (pre.map Prod.fst).contains e.1 = true := List.elem_iff.mpr hmem
      rw [hc] at hn
      simp at hn
    have hpar : ∀ p ∈ e.2.parents, p ∈ pre.map Prod.fst := by
      intro p hp
      exact List.elem_iff.mp (List.all_eq_true.mp hall p hp)
    have hstep := @abandon_step_inv repo S args pre st e hS hlt inv hii hpar
    have h3 : topoOkAux ((pre ++ [e]).map Prod.fst) l = true := by
      rw [List.map_append]
      simpa using hrest
    have hrec := ih (pre ++ [e]) (stepTD repo S (abandonPolicy args S) st e) h3 hstep
    rw [List.foldl_cons]
    rw [List.append_assoc, List.singleton_append] at hrec
    exact hrec

theorem abandon_walk_inv {repo : Repo} {S : List Nat} {args : AbandonArgs}
    (hwf : repoWellFormed repo = true)
    (hS : ∀ s ∈ S, (repo.commits.lookup s).isSome) :
    AbandonInv repo S repo.commits (transform_descendants repo S (abandonPolicy args S)) := by
  unfold repoWellFormed at hwf
  rw [Bool.and_eq_true] at hwf
  obtain ⟨htopo, hlt'⟩ := hwf
  have hlt : ∀ x ∈ repo.commits, x.1 < repo.nextId := by
    intro x hx
    exact of_decide_eq_true (List.all_eq_true.mp hlt' x hx)
  have hinit : AbandonInv repo S [] (initWalkState repo) := by
    refine ⟨?_, ?_, ?_, ?_, ?_, ?_, ?_, ?_, ?_, ?_, ?_⟩
    · intro k hk
      simp [initWalkState, lookup_nil] at hk
    · simp [initWalkState]
    · intro x hx
      exact absurd hx (List.not_mem_nil x)
    · intro kv hkv
      exact absurd hkv (List.not_mem_nil kv)
    · intro kv hkv
      exact absurd hkv (List.not_mem_nil kv)
    · exact Nat.le_refl _
    · intro w hw
      exact absurd hw (List.not_mem_nil w)
    · simp [initWalkState]
    · intro w hw
      exact absurd hw (List.not_mem_nil w)
    · intro x hx
      exact absurd hx (List.not_mem_nil x)
    · intro x hx
      exact absurd hx (List.not_mem_nil x)
  have := @abandon_fold_inv repo S args hS hlt repo.commits [] (initWalkState repo)
    (by simpa using htopo) hinit
  rw [List.nil_append] at this
  exact this

/-! Claim theorems. -/

/-- C10: for every invocation of `cmd_abandon`, `cmd_duplicate`,
`cmd_describe` or `cmd_revert` whose revision arguments resolve to the
empty set, the command returns success (not a user error) without
starting a transaction, leaving the repository unchanged. -/
theorem empty_revset_is_noop :
    (∀ (repo : Repo) (rb rd : Bool),
       cmd_abandon repo { revisions := [], retain_bookmarks := rb, restore_descendants := rd } =
         .ok { repo := repo, txStarted := false, deletedBookmarks := [], numRebased := 0 }) ∧
    (∀ (repo : Repo) (loc : Option (List Nat × List Nat)),
       cmd_duplicate repo { revisions := [], location := loc } =
         .ok { repo := repo, txStarted := false, warnedDescendant := [], warnedAncestor := [],
               duplicated := [], numRebased := 0 }) ∧
    (∀ (repo : Repo) (msg : Option String) (ra : Bool) (au : Option (String × String)),
       cmd_describe repo { revisions := [], message := msg, reset_author := ra, author := au } =
         .ok { repo := repo, txStarted := false, numDescribed := 0 }) ∧
    (∀ (repo : Repo) (ps cs : List Nat) (f : Nat → String),
       cmd_revert repo { revisions := [], newParentIds := ps, newChildIds := cs,
                         descriptionFor := f } =
         .ok { repo := repo, txStarted := false, revertedCount := 0, numRebased := 0 }) :=
  ⟨fun _ _ _ => rfl, fun _ _ => rfl, fun _ _ _ _ => rfl, fun _ _ _ _ => rfl⟩

/-- C7: `cmd_duplicate` fails with a user error when asked to duplicate
the root commit (the last entry of the reverse-topological resolved
list), and the error is returned before a transaction is started, so no
new commit and no operation is produced. -/
theorem duplicate_root_commit_errors (repo : Repo) (args : DuplicateArgs)
    (h : args.revisions.getLast? = some repo.rootId) :
    cmd_duplicate repo args = .error (.userError "Cannot duplicate the root commit") := by
  have hne : args.revisions.isEmpty = false := by
    cases hl : args.revisions with
    | nil => rw [hl] at h; simp at h
    | cons a l => rfl
  unfold cmd_duplicate
  rw [hne]
  rw [if_neg Bool.false_ne_true, if_pos h]

theorem duplicate_root_commit_errors_witness :
    (({ revisions := [1, 0], location := none } : DuplicateArgs).revisions.getLast? =
      some exRepo.rootId) ∧
    cmd_duplicate exRepo { revisions := [1, 0], location := none } =
      .error (.userError "Cannot duplicate the root commit") :=
  ⟨by decide, duplicate_root_commit_errors exRepo _ (by decide)⟩

theorem get_set_local_bookmark (repo : Repo) (n : String) (t : RefTarget) :
    get_local_bookmark (set_local_bookmark repo n t) n = t := by
  unfold get_local_bookmark set_local_bookmark
  simp [List.lookup]

/-- C2: for a bookmark at `X`, `cmd_bookmark_set` moving it to a target
`Y` that is not a descendant of `X` fails with a user error when
`--allow-backwards` is absent (before any transaction, so no bookmark
target changes), succeeds with the flag (after which the bookmark
targets `Y`), and in general the flag-less move is refused exactly when
`is_fast_forward` is false, where `is_fast_forward` holds exactly when
the old target is absent or an ancestor of the new target. -/
theorem bookmark_set_backwards_guard (repo : Repo) (b : String) (x y : Nat)
    (hold : get_local_bookmark repo b = [x])
    (hanc : isAncestor repo x y = false) :
    (cmd_bookmark_set repo y { names := [b], allow_backwards := false } =
       .error (.userErrorHint ("Refusing to move bookmark backwards or sideways: " ++ b)
         "Use --allow-backwards to allow it.")) ∧
    (∃ out, cmd_bookmark_set repo y { names := [b], allow_backwards := true } = .ok out ∧
       get_local_bookmark out.repo b = [y] ∧ out.txStarted = true) ∧
    (∀ (repo' : Repo) (b' : String) (y' : Nat),
       (cmd_bookmark_set repo' y' { names := [b'], allow_backwards := false } =
          .error (.userErrorHint ("Refusing to move bookmark backwards or sideways: " ++ b')
            "Use --allow-backwards to allow it.")) ↔
         is_fast_forward repo' (get_local_bookmark repo' b') y' = false) ∧
    (∀ (repo' : Repo) (t : RefTarget) (y' : Nat),
       is_fast_forward repo' t y' = true ↔
         (t = [] ∨ ∀ i ∈ t, isAncestor repo' i y' = true)) := by
  have hff : is_fast_forward repo (get_local_bookmark repo b) y = false := by
    rw [hold]
    simp [is_fast_forward, hanc]
  refine ⟨?_, ?_, ?_, ?_⟩
  · simp [cmd_bookmark_set, bookmark_set_loop, hff]
  · obtain ⟨⟨nc, mc⟩, hp⟩ : ∃ p, bookmark_set_loop repo y true [b] 0 0 = .ok p := ⟨_, rfl⟩
    refine ⟨{ repo := set_local_bookmark repo b [y], txStarted := true,
              newBookmarkCount := nc, movedBookmarkCount := mc }, ?_, ?_, rfl⟩
    · unfold cmd_bookmark_set
      rw [hp]
      rfl
    · exact get_set_local_bookmark repo b [y]
  · intro repo' b' y'
    cases hf : is_fast_forward repo' (get_local_bookmark repo' b') y' with
    | false =>
      simp only [iff_true]
      simp [cmd_bookmark_set, bookmark_set_loop, hf]
    | true =>
      simp only [Bool.true_eq_false, iff_false]
      simp [cmd_bookmark_set, bookmark_set_loop, hf]
  · intro repo' t y'
    simp [is_fast_forward, List.isEmpty_iff, List.all_eq_true, Bool.or_eq_true]

theorem bookmark_set_backwards_guard_witness :
    (get_local_bookmark exRepoB "b" = [2] ∧ isAncestor exRepoB 2 1 = false) ∧
    ((cmd_bookmark_set exRepoB 1 { names := ["b"], allow_backwards := false } =
       .error (.userErrorHint ("Refusing to move bookmark backwards or sideways: " ++ "b")
         "Use --allow-backwards to allow it.")) ∧
     (∃ out, cmd_bookmark_set exRepoB 1 { names := ["b"], allow_backwards := true } = .ok out ∧
        get_local_bookmark out.repo "b" = [1] ∧ out.txStarted = true) ∧
     (∀ (repo' : Repo) (b' : String) (y' : Nat),
        (cmd_bookmark_set repo' y' { names := [b'], allow_backwards := false } =
           .error (.userErrorHint ("Refusing to move bookmark backwards or sideways: " ++ b')
             "Use --allow-backwards to allow it.")) ↔
          is_fast_forward repo' (get_local_bookmark repo' b') y' = false) ∧
     (∀ (repo' : Repo) (t : RefTarget) (y' : Nat),
        is_fast_forward repo' t y' = true ↔
          (t = [] ∨ ∀ i ∈ t, isAncestor repo' i y' = true))) :=
  ⟨⟨by decide, by decide⟩, bookmark_set_backwards_guard exRepoB "b" 2 1 (by decide) (by decide)⟩

/-- C6 (counterexample): a bookmark with a tracked remote counterpart
whose old local target already equals the new target is counted neither
as newly created nor as moved by `cmd_bookmark_set`, refuting the claim
that a tracked remote counterpart alone makes the move count as moved. -/
theorem bookmark_set_moved_count_counterexample :
    has_tracked_remote_bookmarks exRepoB "b" = true ∧
    get_local_bookmark exRepoB "b" = [2] ∧
    cmd_bookmark_set exRepoB 2 { names := ["b"], allow_backwards := true } =
      .ok { repo := set_local_bookmark exRepoB "b" [2], txStarted := true,
            newBookmarkCount := 0, movedBookmarkCount := 0 } :=
  ⟨rfl, rfl, rfl⟩

/-- C6 (amended): in `cmd_bookmark_set`, a bookmark counts as newly
created exactly when its old local target is absent and no tracked
remote counterpart exists; it counts as moved exactly when it is not
newly created and its old target, read as a normal target, differs from
the new target id (so an absent bookmark with a tracked remote
counterpart counts as moved, and a bookmark already at the target counts
as neither); no bookmark is counted twice. -/
theorem bookmark_set_counts_amended (repo : Repo) (b : String) (y : Nat) :
    ∃ out, cmd_bookmark_set repo y { names := [b], allow_backwards := true } = .ok out ∧
      (out.newBookmarkCount = 1 ↔
        ((get_local_bookmark repo b).isEmpty = true ∧
          has_tracked_remote_bookmarks repo b = false)) ∧
      (out.movedBookmarkCount = 1 ↔
        (¬((get_local_bookmark repo b).isEmpty = true ∧
            has_tracked_remote_bookmarks repo b = false) ∧
          asNormal (get_local_bookmark repo b) ≠ some y)) ∧
      out.newBookmarkCount + out.movedBookmarkCount ≤ 1 := by
  refine ⟨{ repo := set_local_bookmark repo b [y], txStarted := true,
            newBookmarkCount :=
              if (get_local_bookmark repo b).isEmpty &&
                  !has_tracked_remote_bookmarks repo b then 1 else 0,
            movedBookmarkCount :=
              if !((get_local_bookmark repo b).isEmpty &&
                    !has_tracked_remote_bookmarks repo b) &&
                  (asNormal (get_local_bookmark repo b) != some y) then 1 else 0 },
    rfl, ?_, ?_, ?_⟩ <;>
  · cases hE : (get_local_bookmark repo b).isEmpty <;>
      cases hT : has_tracked_remote_bookmarks repo b <;>
      by_cases hA : asNormal (get_local_bookmark repo b) = some y <;>
      simp [hE, hT, hA, bne_iff_ne]

/-- C5: `cmd_describe` is a no-op on unchanged commits: a selected
commit whose new description equals its current one, with neither
`--reset-author` nor a differing `--author`, is excluded from the
rewrite pass (it is filtered out of `describe_targets`, the roots of the
descendant walk); consequently, when every selected commit is unchanged
the command succeeds and leaves the repository — every commit id
included — unchanged, rebasing no descendants. -/
theorem describe_unchanged_commit_noop (repo : Repo) (args : DescribeArgs) :
    (∀ i c, repo.commits.lookup i = some c → i ∈ args.revisions →
       describe_new_description args c = c.description →
       args.reset_author = false →
       author_differs args c = false →
       i ∉ (describe_targets repo args).map Prod.fst) ∧
    (args.revisions ≠ [] →
     args.revisions.contains repo.rootId = false →
     (∀ i c, repo.commits.lookup i = some c → i ∈ args.revisions →
        describe_changed args c = false) →
     cmd_describe repo args = .ok { repo := repo, txStarted := true, numDescribed := 0 }) := by
  constructor
  · intro i c hlk hrev hdesc hra hauth hmem
    obtain ⟨e, he, he1⟩ := List.mem_map.mp hmem
    unfold describe_targets at he
    obtain ⟨e', he', he'eq⟩ := List.mem_map.mp he
    have hch := (List.mem_filter.mp he').2
    have he'' := (List.mem_filter.mp he').1
    obtain ⟨j, hj, hjeq⟩ := List.mem_filterMap.mp he''
    cases hl : repo.commits.lookup j with
    | none => rw [hl] at hjeq; simp at hjeq
    | some cj =>
      rw [hl] at hjeq
      simp only [Option.map_some'] at hjeq
      have hje : e' = (j, cj) := (Option.some.inj hjeq).symm
      have hij : i = j := by
        rw [← he1, ← he'eq, hje]
      have hccj : c = cj := by
        rw [hij, hl] at hlk
        exact (Option.some.inj hlk).symm
      rw [hje] at hch
      have : describe_changed args cj = false := by
        unfold describe_changed
        rw [← hccj, hdesc, hra, hauth]
        simp
      rw [this] at hch
      exact Bool.false_ne_true hch
  · intro hne hroot hall
    have htargets : describe_targets repo args = [] := by
      unfold describe_targets
      have hfil : (args.revisions.filterMap
          (fun i => (repo.commits.lookup i).map (fun c => (i, c)))).filter
            (fun e => describe_changed args e.2) = [] := by
        rw [List.filter_eq_nil_iff]
        intro e he
        obtain ⟨j, hj, hjeq⟩ := List.mem_filterMap.mp he
        cases hl : repo.commits.lookup j with
        | none => rw [hl] at hjeq; simp at hjeq
        | some cj =>
          rw [hl] at hjeq
          simp only [Option.map_some'] at hjeq
          have hje : e = (j, cj) := (Option.some.inj hjeq).symm
          rw [hje]
          intro hcontra
          rw [hall j cj hl hj] at hcontra
          exact Bool.false_ne_true hcontra
      rw [hfil]
      rfl
    have hne' : args.revisions.isEmpty = false := by
      cases hl : args.revisions with
      | nil => exact absurd hl hne
      | cons a l => rfl
    have hcr : (!check_rewritable repo args.revisions) = false := by
      unfold check_rewritable
      rw [hroot]
      rfl
    unfold cmd_describe
    rw [hne', if_neg Bool.false_ne_true, hcr, if_neg Bool.false_ne_true]
    simp only [htargets, List.map_nil, transform_descendants_no_roots, applyWalk_init,
      List.length_nil]

theorem describe_unchanged_commit_noop_witness :
    ((exRepo.commits.lookup 2).isSome ∧ (2 ∈ ([2] : List Nat)) ∧
      ([2] : List Nat) ≠ [] ∧ ([2] : List Nat).contains exRepo.rootId = false) ∧
    (2 ∉ (describe_targets exRepo
        { revisions := [2], message := none, reset_author := false,
          author := none }).map Prod.fst ∧
     cmd_describe exRepo
        { revisions := [2], message := none, reset_author := false, author := none } =
       .ok { repo := exRepo, txStarted := true, numDescribed := 0 }) := by
  refine ⟨by decide, ?_, ?_⟩
  · exact (describe_unchanged_commit_noop exRepo
      { revisions := [2], message := none, reset_author := false, author := none }).1
      2 { parents := [1], tree := 12, description := "B", authorName := "",
          authorEmail := "", committerName := "", committerEmail := "", signed := false }
      (by decide) (by decide) rfl rfl rfl
  · refine (describe_unchanged_commit_noop exRepo
      { revisions := [2], message := none, reset_author := false, author := none }).2
      (by decide) (by decide) ?_
    intro i c hl hi
    rw [List.mem_singleton] at hi
    subst hi
    have h2 : exRepo.commits.lookup 2 = some
        { parents := [1], tree := 12, description := "B", authorName := "",
          authorEmail := "", committerName := "", committerEmail := "", signed := false } := by
      decide
    rw [h2] at hl
    have := Option.some.inj hl
    rw [← this]
    decide

/-- C9: `cmd_unsign` takes as rewrite roots exactly the selected commits
that are signed (unsigned selections are not targets and, when no
selected commit is signed, the repository is untouched), and every
commit its walk writes — targets and descendants alike — is reparented,
never rebased: its tree id is kept, targets additionally dropping their
signature. -/
theorem unsign_reparents_only (repo : Repo) (args : UnsignArgs)
    (hroot : args.revisions.contains repo.rootId = false) :
    (∀ i, i ∈ unsign_targets repo args ↔ (i ∈ args.revisions ∧ commit_signed repo i = true)) ∧
    (∀ e ∈ (transform_descendants repo (unsign_targets repo args)
        (unsignPolicy (unsign_targets repo args))).written,
      ∃ oid c nps, (oid, c) ∈ repo.commits ∧ e.2.tree = c.tree ∧
        (if oid ∈ unsign_targets repo args
         then e.2 = { c with parents := nps, signed := false }
         else e.2 = { c with parents := nps })) ∧
    ((∀ i ∈ args.revisions, commit_signed repo i = false) →
      cmd_unsign repo args =
        .ok { repo := repo, txStarted := true, unsignedCount := 0, numReparented := 0 }) := by
  refine ⟨?_, ?_, ?_⟩
  · intro i
    unfold unsign_targets
    rw [List.mem_filter]
  · exact written_of_transform
      (fun oid c nps d => d.tree = c.tree ∧
        (if oid ∈ unsign_targets repo args
         then d = { c with parents := nps, signed := false }
         else d = { c with parents := nps }))
      (by
        intro tf oid c nps d hpa
        unfold unsignPolicy at hpa
        cases hc : (unsign_targets repo args).contains oid with
        | true =>
          rw [if_pos hc] at hpa
          have hd := (RewriteAction.writeA.inj hpa).symm
          subst hd
          exact ⟨rfl, by rw [if_pos (List.elem_iff.mp hc)]⟩
        | false =>
          rw [if_neg (by rw [hc]; exact Bool.false_ne_true)] at hpa
          have hd := (RewriteAction.writeA.inj hpa).symm
          subst hd
          refine ⟨rfl, ?_⟩
          rw [if_neg (fun hmem => Bool.false_ne_true (hc ▸ List.elem_iff.mpr hmem))])
  · intro hall
    have htg : unsign_targets repo args = [] := by
      unfold unsign_targets
      rw [List.filter_eq_nil_iff]
      intro i hi h
      rw [hall i hi] at h
      exact Bool.false_ne_true h
    have hcr : (!check_rewritable repo args.revisions) = false := by
      unfold check_rewritable
      rw [hroot]
      rfl
    unfold cmd_unsign
    rw [hcr, if_neg Bool.false_ne_true]
    simp only [htg, transform_descendants_no_roots, applyWalk_init, List.length_nil]
    rfl

theorem unsign_reparents_only_witness :
    (([1, 2] : List Nat).contains exRepoS.rootId = false) ∧
    ((∀ i, i ∈ unsign_targets exRepoS { revisions := [1, 2] } ↔
        (i ∈ ([1, 2] : List Nat) ∧ commit_signed exRepoS i = true)) ∧
     (∀ e ∈ (transform_descendants exRepoS (unsign_targets exRepoS { revisions := [1, 2] })
         (unsignPolicy (unsign_targets exRepoS { revisions := [1, 2] }))).written,
       ∃ oid c nps, (oid, c) ∈ exRepoS.commits ∧ e.2.tree = c.tree ∧
         (if oid ∈ unsign_targets exRepoS { revisions := [1, 2] }
          then e.2 = { c with parents := nps, signed := false }
          else e.2 = { c with parents := nps })) ∧
     ((∀ i ∈ ([1, 2] : List Nat), commit_signed exRepoS i = false) →
       cmd_unsign exRepoS { revisions := [1, 2] } =
         .ok { repo := exRepoS, txStarted := true, unsignedCount := 0,
               numReparented := 0 })) :=
  ⟨by decide, unsign_reparents_only exRepoS { revisions := [1, 2] } (by decide)⟩

theorem dup_foldl_mono {repo : Repo} {toDup parentIds : List Nat} {useLoc : Bool} :
    ∀ (l : List Nat) (st : DupState) (x : Nat × Nat),
      x ∈ st.dupMap →
      x ∈ (l.foldl (duplicateStep repo toDup parentIds useLoc) st).dupMap := by
  intro l
  induction l with
  | nil => intro st x h; exact h
  | cons a l ih =>
    intro st x h
    rw [List.foldl_cons]
    apply ih
    unfold duplicateStep
    cases hl : repo.commits.lookup a with
    | none => exact h
    | some c => exact List.mem_append_left _ h

theorem dup_foldl_covers {repo : Repo} {toDup parentIds : List Nat} {useLoc : Bool} :
    ∀ (l : List Nat) (st : DupState), ∀ i ∈ l, (repo.commits.lookup i).isSome →
      ∃ n, (i, n) ∈ (l.foldl (duplicateStep repo toDup parentIds useLoc) st).dupMap := by
  intro l
  induction l with
  | nil => intro st i hi; exact absurd hi (List.not_mem_nil i)
  | cons a l ih =>
    intro st i hi hsome
    rw [List.foldl_cons]
    rcases List.mem_cons.mp hi with hi | hi
    · subst hi
      obtain ⟨c, hc⟩ := Option.isSome_iff_exists.mp hsome
      refine ⟨st.nextId, ?_⟩
      apply dup_foldl_mono
      unfold duplicateStep
      rw [hc]
      exact List.mem_append_right _ (by simp)
    · exact ih _ i hi hsome

/-- C8: duplicating a commit as its own descendant is a non-fatal
advisory: when a duplicated commit is an ancestor of a destination
parent, `cmd_duplicate` records the warning but still duplicates the
commit and the transaction finishes successfully. -/
theorem duplicate_descendant_warning_nonfatal (repo : Repo) (args : DuplicateArgs)
    (ps cs : List Nat) (c p : Nat)
    (hloc : args.location = some (ps, cs))
    (hpne : ps.isEmpty = false)
    (hcmem : c ∈ args.revisions)
    (hpmem : p ∈ ps)
    (hanc : isAncestor repo c p = true)
    (hlast : ¬ args.revisions.getLast? = some repo.rootId)
    (hdata : (repo.commits.lookup c).isSome) :
    cmd_duplicate repo args = .ok (duplicate_body repo args) ∧
      c ∈ (duplicate_body repo args).warnedDescendant ∧
      (∃ n, (c, n) ∈ (duplicate_body repo args).duplicated) ∧
      (duplicate_body repo args).txStarted = true := by
  have hne : args.revisions.isEmpty = false := by
    cases hl : args.revisions with
    | nil => rw [hl] at hcmem; exact absurd hcmem (List.not_mem_nil c)
    | cons a l => rfl
  refine ⟨?_, ?_, ?_, rfl⟩
  · unfold cmd_duplicate
    rw [hne, if_neg Bool.false_ne_true, if_neg hlast]
  · have hwd : (duplicate_body repo args).warnedDescendant =
        (match args.location with
          | some (ps, _) =>
            if ps.isEmpty then []
            else args.revisions.filter (fun c => ps.any (fun p => isAncestor repo c p))
          | none => []) := rfl
    rw [hwd, hloc]
    simp only [hpne, Bool.false_eq_true, if_false]
    exact List.mem_filter.mpr ⟨hcmem, List.any_eq_true.mpr ⟨p, hpmem, hanc⟩⟩
  · have hdup : (duplicate_body repo args).duplicated =
        (duplicate_commits repo args.revisions ((args.location.map Prod.fst).getD [])
          args.location.isSome).dupMap := rfl
    rw [hdup]
    unfold duplicate_commits
    exact dup_foldl_covers args.revisions.reverse _ c (List.mem_reverse.mpr hcmem) hdata

theorem duplicate_descendant_warning_nonfatal_witness :
    (({ revisions := [1], location := some ([2], []) } : DuplicateArgs).location =
        some ([2], []) ∧
      ([2] : List Nat).isEmpty = false ∧
      1 ∈ ({ revisions := [1], location := some ([2], []) } : DuplicateArgs).revisions ∧
      2 ∈ ([2] : List Nat) ∧
      isAncestor exRepo 1 2 = true ∧
      ¬({ revisions := [1], location := some ([2], []) } : DuplicateArgs).revisions.getLast? =
          some exRepo.rootId ∧
      (exRepo.commits.lookup 1).isSome) ∧
    (cmd_duplicate exRepo { revisions := [1], location := some ([2], []) } =
        .ok (duplicate_body exRepo { revisions := [1], location := some ([2], []) }) ∧
      1 ∈ (duplicate_body exRepo
        { revisions := [1], location := some ([2], []) }).warnedDescendant ∧
      (∃ n, (1, n) ∈ (duplicate_body exRepo
        { revisions := [1], location := some ([2], []) }).duplicated) ∧
      (duplicate_body exRepo { revisions := [1], location := some ([2], []) }).txStarted =
        true) :=
  ⟨by decide,
   duplicate_descendant_warning_nonfatal exRepo _ [2] [] 1 2 rfl rfl (by decide) (by decide)
     (by decide) (by decide) (by decide)⟩

/-- C4: in `cmd_abandon`, every commit the walk writes is a descendant
that is not itself abandoned, and it is processed one of two ways: with
`--restore-descendants` it is reparented only — its tree id is
unchanged, only its parent pointers move to the resolved new parents —
and without the flag it is rebased, its tree recomputed as the
three-way merge of its old parent tree, its new parent tree and its old
tree. -/
theorem abandon_restore_descendants_policy (repo : Repo) (args : AbandonArgs) :
    ∀ e ∈ (transform_descendants repo args.revisions
        (abandonPolicy args args.revisions)).written,
      ∃ st oid c, walkReaches repo args.revisions (abandonPolicy args args.revisions) st ∧
        (oid, c) ∈ repo.commits ∧ oid ∉ args.revisions ∧
        (args.restore_descendants = true →
          e.2 = { c with parents := resolvedParents st c } ∧ e.2.tree = c.tree) ∧
        (args.restore_descendants = false →
          e.2 = rebaseData (treeOfSt repo st) c (resolvedParents st c) ∧
          e.2.tree = mergeTreeId (mergeParentTrees (treeOfSt repo st) c.parents)
            (mergeParentTrees (treeOfSt repo st) (resolvedParents st c)) c.tree) := by
  intro e he
  obtain ⟨st, oid, c, hr, hm, hpa⟩ := written_reached e he
  have hcon : args.revisions.contains oid = false := by
    cases hc : args.revisions.contains oid with
    | false => rfl
    | true =>
      unfold abandonPolicy at hpa
      rw [if_pos hc] at hpa
      cases hpa
  have hcon' : ¬(args.revisions.contains oid = true) := by
    rw [hcon]
    exact Bool.false_ne_true
  refine ⟨st, oid, c, hr, hm, ?_, ?_, ?_⟩
  · exact fun hmem => hcon' (List.elem_iff.mpr hmem)
  · intro hre
    unfold abandonPolicy at hpa
    rw [if_neg hcon', if_pos hre] at hpa
    have := (RewriteAction.writeA.inj hpa).symm
    exact ⟨this, by rw [this]⟩
  · intro hre
    unfold abandonPolicy at hpa
    rw [if_neg hcon', if_neg (by rw [hre]; exact Bool.false_ne_true)] at hpa
    have := (RewriteAction.writeA.inj hpa).symm
    exact ⟨this, by rw [this]; rfl⟩

theorem abandon_restore_descendants_policy_witness :
    (((4, exC4) : Nat × CommitData) ∈
       (transform_descendants exRepo exArgsA.revisions
         (abandonPolicy exArgsA exArgsA.revisions)).written) ∧
    (∃ st oid c, walkReaches exRepo exArgsA.revisions (abandonPolicy exArgsA exArgsA.revisions)
        st ∧
      (oid, c) ∈ exRepo.commits ∧ oid ∉ exArgsA.revisions ∧
      (exArgsA.restore_descendants = true →
        ((4, exC4) : Nat × CommitData).2 = { c with parents := resolvedParents st c } ∧
        ((4, exC4) : Nat × CommitData).2.tree = c.tree) ∧
      (exArgsA.restore_descendants = false →
        ((4, exC4) : Nat × CommitData).2 = rebaseData (treeOfSt exRepo st) c
          (resolvedParents st c) ∧
        ((4, exC4) : Nat × CommitData).2.tree =
          mergeTreeId (mergeParentTrees (treeOfSt exRepo st) c.parents)
            (mergeParentTrees (treeOfSt exRepo st) (resolvedParents st c)) c.tree)) :=
  ⟨by decide, abandon_restore_descendants_policy exRepo exArgsA _ (by decide)⟩

theorem repoWellFormed_lt {repo : Repo} (hwf : repoWellFormed repo = true) :
    ∀ x ∈ repo.commits, x.1 < repo.nextId := by
  unfold repoWellFormed at hwf
  rw [Bool.and_eq_true] at hwf
  intro x hx
  exact of_decide_eq_true (List.all_eq_true.mp hwf.2 x hx)

/-- C1: after `cmd_abandon` on a non-empty rewritable set `S`, no
surviving commit — carried over or newly written — has a parent id in
`S`; every member of `S` is abandoned (its mapping entry is an
`abandoned` entry, it emits no new commit, and its id is gone from the
repository); the walk's mapping and written lists pair each affected
commit with exactly one replacement (distinct keys, distinct new ids);
and every commit the walk never touches — in particular everything
reachable below `S`'s original parents — is carried over unchanged. -/
theorem abandon_no_stale_parents (repo : Repo) (args : AbandonArgs)
    (hwf : repoWellFormed repo = true)
    (hne : args.revisions ≠ [])
    (hS : ∀ s ∈ args.revisions, (repo.commits.lookup s).isSome)
    (hroot : args.revisions.contains repo.rootId = false) :
    cmd_abandon repo args = .ok (abandon_body repo args) ∧
    (∀ e ∈ (abandon_body repo args).repo.commits, ∀ p ∈ e.2.parents, p ∉ args.revisions) ∧
    (∀ s ∈ args.revisions, ∃ ps,
      (transform_descendants repo args.revisions
        (abandonPolicy args args.revisions)).mapping.lookup s =
          some (Replacement.abandoned ps) ∧
      s ∉ (abandon_body repo args).repo.commits.map Prod.fst) ∧
    ((transform_descendants repo args.revisions
       (abandonPolicy args args.revisions)).mapping.map Prod.fst).Nodup ∧
    ((transform_descendants repo args.revisions
       (abandonPolicy args args.revisions)).written.map Prod.fst).Nodup ∧
    (∀ e ∈ repo.commits,
      ((transform_descendants repo args.revisions
        (abandonPolicy args args.revisions)).mapping.lookup e.1) = none →
      e ∈ (abandon_body repo args).repo.commits) := by
  have inv := @abandon_walk_inv repo args.revisions args hwf hS
  have hlt := repoWellFormed_lt hwf
  have hne' : args.revisions.isEmpty = false := by
    cases hl : args.revisions with
    | nil => exact absurd hl hne
    | cons a l => rfl
  have hcr : (!check_rewritable repo args.revisions) = false := by
    unfold check_rewritable
    rw [hroot]
    rfl
  refine ⟨?_, ?_, ?_, inv.keys_nodup, inv.written_nodup, ?_⟩
  · unfold cmd_abandon
    rw [hne', if_neg Bool.false_ne_true, hcr, if_neg Bool.false_ne_true]
  · intro e he p hp hpS
    have he' : e ∈ repo.commits.filter
        (fun x => ((transform_descendants repo args.revisions
          (abandonPolicy args args.revisions)).mapping.lookup x.1).isNone) ++
        (transform_descendants repo args.revisions
          (abandonPolicy args args.revisions)).written := he
    rcases List.mem_append.mp he' with hf | hw
    · have heR := List.mem_of_mem_filter hf
      have hnone := (List.mem_filter.mp hf).2
      obtain ⟨ep, hep, hep1⟩ := List.mem_map.mp (inv.pre_parents e heR p hp)
      have hsome := inv.s_mapped ep hep (by rw [hep1]; exact hpS)
      rw [hep1] at hsome
      have hcl := inv.desc_closed e heR ⟨p, hp, hsome⟩
      obtain ⟨r, hr⟩ := Option.isSome_iff_exists.mp hcl
      rw [hr] at hnone
      simp at hnone
    · exact inv.written_clean e hw p hp hpS
  · intro s hs
    obtain ⟨cs, hcs⟩ := Option.isSome_iff_exists.mp (hS s hs)
    have hmem : (s, cs) ∈ repo.commits := lookup_mem hcs
    have hsome := inv.s_mapped (s, cs) hmem hs
    obtain ⟨r, hr⟩ := Option.isSome_iff_exists.mp hsome
    obtain ⟨ps, hps⟩ := inv.s_abandoned (s, r) (lookup_mem hr) hs
    refine ⟨ps, by rw [hr]; exact congrArg some hps, ?_⟩
    intro hmem'
    obtain ⟨e, he, he1⟩ := List.mem_map.mp hmem'
    have he' : e ∈ repo.commits.filter
        (fun x => ((transform_descendants repo args.revisions
          (abandonPolicy args args.revisions)).mapping.lookup x.1).isNone) ++
        (transform_descendants repo args.revisions
          (abandonPolicy args args.revisions)).written := he
    rcases List.mem_append.mp he' with hf | hw
    · have hnone := (List.mem_filter.mp hf).2
      rw [he1, hr] at hnone
      simp at hnone
    · have hfr := (inv.written_fresh e hw).1
      rw [he1] at hfr
      exact absurd (hlt (s, cs) hmem) (Nat.not_lt.mpr hfr)
  · intro e he hnone
    have : e ∈ repo.commits.filter
        (fun x => ((transform_descendants repo args.revisions
          (abandonPolicy args args.revisions)).mapping.lookup x.1).isNone) ++
        (transform_descendants repo args.revisions
          (abandonPolicy args args.revisions)).written :=
      List.mem_append_left _ (List.mem_filter.mpr ⟨he, by rw [hnone]; rfl⟩)
    exact this

theorem abandon_no_stale_parents_witness :
    (repoWellFormed exRepo = true ∧ exArgsA.revisions ≠ [] ∧
      (∀ s ∈ exArgsA.revisions, (exRepo.commits.lookup s).isSome) ∧
      exArgsA.revisions.contains exRepo.rootId = false) ∧
    (cmd_abandon exRepo exArgsA = .ok (abandon_body exRepo exArgsA) ∧
     (∀ e ∈ (abandon_body exRepo exArgsA).repo.commits, ∀ p ∈ e.2.parents,
        p ∉ exArgsA.revisions) ∧
     (∀ s ∈ exArgsA.revisions, ∃ ps,
       (transform_descendants exRepo exArgsA.revisions
         (abandonPolicy exArgsA exArgsA.revisions)).mapping.lookup s =
           some (Replacement.abandoned ps) ∧
       s ∉ (abandon_body exRepo exArgsA).repo.commits.map Prod.fst) ∧
     ((transform_descendants exRepo exArgsA.revisions
        (abandonPolicy exArgsA exArgsA.revisions)).mapping.map Prod.fst).Nodup ∧
     ((transform_descendants exRepo exArgsA.revisions
        (abandonPolicy exArgsA exArgsA.revisions)).written.map Prod.fst).Nodup ∧
     (∀ e ∈ exRepo.commits,
       ((transform_descendants exRepo exArgsA.revisions
         (abandonPolicy exArgsA exArgsA.revisions)).mapping.lookup e.1) = none →
       e ∈ (abandon_body exRepo exArgsA).repo.commits)) :=
  ⟨⟨by decide, by decide, by decide, by decide⟩,
   abandon_no_stale_parents exRepo exArgsA (by decide) (by decide) (by decide) (by decide)⟩

theorem updateTarget_singleton (opts : RewriteRefsOptions)
    (mapping : List (Nat × Replacement)) (i : Nat) :
    updateTarget opts mapping [i] =
      (match mapping.lookup i with
       | none => [i]
       | some (.rewritten n) => [n]
       | some (.abandoned ps) => if opts.delete_abandoned_bookmarks then [] else ps) := by
  simp [updateTarget, listJoinMap]

/-- C3: after `cmd_abandon`, the walk runs with
`delete_abandoned_bookmarks` set exactly when `--retain-bookmarks` is
absent, and accordingly every local bookmark that pointed at an
abandoned commit is deleted (default) or moved to that commit's resolved
parent set (with `--retain-bookmarks`), while bookmarks pointing at
surviving rewritten commits are updated to the corresponding new id. -/
theorem abandon_bookmark_updates (repo : Repo) (args : AbandonArgs)
    (hwf : repoWellFormed repo = true)
    (hne : args.revisions ≠ [])
    (hS : ∀ s ∈ args.revisions, (repo.commits.lookup s).isSome)
    (hroot : args.revisions.contains repo.rootId = false) :
    cmd_abandon repo args = .ok (abandon_body repo args) ∧
    (∀ name s, (name, [s]) ∈ repo.bookmarks → s ∈ args.revisions →
      ∃ ps, (transform_descendants repo args.revisions
          (abandonPolicy args args.revisions)).mapping.lookup s =
            some (Replacement.abandoned ps) ∧
        (args.retain_bookmarks = false →
          (name, ([] : RefTarget)) ∈ (abandon_body repo args).repo.bookmarks ∧
          name ∈ (abandon_body repo args).deletedBookmarks) ∧
        (args.retain_bookmarks = true →
          (name, ps) ∈ (abandon_body repo args).repo.bookmarks)) ∧
    (∀ name i n, (name, [i]) ∈ repo.bookmarks →
      (transform_descendants repo args.revisions
        (abandonPolicy args args.revisions)).mapping.lookup i =
          some (Replacement.rewritten n) →
      (name, [n]) ∈ (abandon_body repo args).repo.bookmarks) := by
  have inv := @abandon_walk_inv repo args.revisions args hwf hS
  have hne' : args.revisions.isEmpty = false := by
    cases hl : args.revisions with
    | nil => exact absurd hl hne
    | cons a l => rfl
  have hcr : (!check_rewritable repo args.revisions) = false := by
    unfold check_rewritable
    rw [hroot]
    rfl
  refine ⟨?_, ?_, ?_⟩
  · unfold cmd_abandon
    rw [hne', if_neg Bool.false_ne_true, hcr, if_neg Bool.false_ne_true]
  · intro name s hb hsS
    obtain ⟨cs, hcs⟩ := Option.isSome_iff_exists.mp (hS s hsS)
    have hsome := inv.s_mapped (s, cs) (lookup_mem hcs) hsS
    obtain ⟨r, hr⟩ := Option.isSome_iff_exists.mp hsome
    obtain ⟨ps, hps⟩ := inv.s_abandoned (s, r) (lookup_mem hr) hsS
    have hlook : (transform_descendants repo args.revisions
        (abandonPolicy args args.revisions)).mapping.lookup s =
          some (Replacement.abandoned ps) := by
      rw [hr]
      exact congrArg some hps
    refine ⟨ps, hlook, ?_, ?_⟩
    · intro hret
      have hupd : updateTarget { delete_abandoned_bookmarks := !args.retain_bookmarks }
          (transform_descendants repo args.revisions
            (abandonPolicy args args.revisions)).mapping [s] = [] := by
        rw [updateTarget_singleton, hlook, hret]
        rfl
      constructor
      · have : (name, updateTarget { delete_abandoned_bookmarks := !args.retain_bookmarks }
            (transform_descendants repo args.revisions
              (abandonPolicy args args.revisions)).mapping [s]) ∈
            repo.bookmarks.map (fun e =>
              (e.1, updateTarget { delete_abandoned_bookmarks := !args.retain_bookmarks }
                (transform_descendants repo args.revisions
                  (abandonPolicy args args.revisions)).mapping e.2)) :=
          List.mem_map.mpr ⟨(name, [s]), hb, rfl⟩
        rw [hupd] at this
        exact this
      · have hup' : (if updateTarget { delete_abandoned_bookmarks := !args.retain_bookmarks }
            (transform_descendants repo args.revisions
              (abandonPolicy args args.revisions)).mapping [s] ≠ [s] ∧
            updateTarget { delete_abandoned_bookmarks := !args.retain_bookmarks }
              (transform_descendants repo args.revisions
                (abandonPolicy args args.revisions)).mapping [s] = []
            then some name else none) = some name := by
          rw [hupd]
          rw [if_pos ⟨by simp, rfl⟩]
        exact List.mem_filterMap.mpr ⟨(name, [s]), hb, hup'⟩
    · intro hret
      have hupd : updateTarget { delete_abandoned_bookmarks := !args.retain_bookmarks }
          (transform_descendants repo args.revisions
            (abandonPolicy args args.revisions)).mapping [s] = ps := by
        rw [updateTarget_singleton, hlook, hret]
        rfl
      have : (name, updateTarget { delete_abandoned_bookmarks := !args.retain_bookmarks }
          (transform_descendants repo args.revisions
            (abandonPolicy args args.revisions)).mapping [s]) ∈
          repo.bookmarks.map (fun e =>
            (e.1, updateTarget { delete_abandoned_bookmarks := !args.retain_bookmarks }
              (transform_descendants repo args.revisions
                (abandonPolicy args args.revisions)).mapping e.2)) :=
        List.mem_map.mpr ⟨(name, [s]), hb, rfl⟩
      rw [hupd] at this
      exact this
  · intro name i n hb hlook
    have hupd : updateTarget { delete_abandoned_bookmarks := !args.retain_bookmarks }
        (transform_descendants repo args.revisions
          (abandonPolicy args args.revisions)).mapping [i] = [n] := by
      rw [updateTarget_singleton, hlook]
    have : (name, updateTarget { delete_abandoned_bookmarks := !args.retain_bookmarks }
        (transform_descendants repo args.revisions
          (abandonPolicy args args.revisions)).mapping [i]) ∈
        repo.bookmarks.map (fun e =>
          (e.1, updateTarget { delete_abandoned_bookmarks := !args.retain_bookmarks }
            (transform_descendants repo args.revisions
              (abandonPolicy args args.revisions)).mapping e.2)) :=
      List.mem_map.mpr ⟨(name, [i]), hb, rfl⟩
    rw [hupd] at this
    exact this

theorem abandon_bookmark_updates_witness :
    (repoWellFormed exRepo = true ∧ exArgsA.revisions ≠ [] ∧
      (∀ s ∈ exArgsA.revisions, (exRepo.commits.lookup s).isSome) ∧
      exArgsA.revisions.contains exRepo.rootId = false) ∧
    (cmd_abandon exRepo exArgsA = .ok (abandon_body exRepo exArgsA) ∧
     (∀ name s, (name, [s]) ∈ exRepo.bookmarks → s ∈ exArgsA.revisions →
       ∃ ps, (transform_descendants exRepo exArgsA.revisions
           (abandonPolicy exArgsA exArgsA.revisions)).mapping.lookup s =
             some (Replacement.abandoned ps) ∧
         (exArgsA.retain_bookmarks = false →
           (name, ([] : RefTarget)) ∈ (abandon_body exRepo exArgsA).repo.bookmarks ∧
           name ∈ (abandon_body exRepo exArgsA).deletedBookmarks) ∧
         (exArgsA.retain_bookmarks = true →
           (name, ps) ∈ (abandon_body exRepo exArgsA).repo.bookmarks)) ∧
     (∀ name i n, (name, [i]) ∈ exRepo.bookmarks →
       (transform_descendants exRepo exArgsA.revisions
         (abandonPolicy exArgsA exArgsA.revisions)).mapping.lookup i =
           some (Replacement.rewritten n) →
       (name, [n]) ∈ (abandon_body exRepo exArgsA).repo.bookmarks)) :=
  ⟨⟨by decide, by decide, by decide, by decide⟩,
   abandon_bookmark_updates exRepo exArgsA (by decide) (by decide) (by decide) (by decide)⟩
